import Mathlib

/-!
Verification of the EduGen retrieval-augmented exam generator/grader
(`rag_pipeline.py`, `app.py`) against its natural-language specification.

The Python source is shallowly embedded below.  Machine-level caveats of the
embedding, each noted at the definition it concerns:
* Python `json.loads` / `json.JSONDecoder().raw_decode` are modelled by a
  hand-written JSON parser over `List Char` (`parseVal` and friends) covering
  objects, arrays, strings (with escapes), integer numerals and the three
  literals.  Non-integer numerals (fraction/exponent parts) are treated as a
  parse failure; no claim involves them.
* Python strings are modelled by Lean `String`, ASCII whitespace only.
* Recursive functions take an explicit fuel argument where Lean needs it;
  callers pass `length + 1`, which is always sufficient (fuel is a modelling
  artifact, every lemma transports success between fuel amounts explicitly).
-/

/-- The backquote character, written via its code point. -/
def bqChar : Char := Char.ofNat 96

/-- JSON values as produced by `json.loads`.  Python dicts keep insertion
order, so objects are association lists; duplicate keys are resolved
last-wins at lookup time, matching how Python builds the dict. -/
inductive Json where
  | null
  | bool (b : Bool)
  | num (n : Int)
  | str (s : String)
  | arr (items : List Json)
  | obj (members : List (String × Json))
deriving Repr

/-- Whether a JSON value is an object (a Python `dict`). -/
def isObjJ : Json → Bool
  | Json.obj _ => true
  | _ => false

/-- JSON whitespace as skipped by Python `json` between tokens. -/
def isJsonWs (c : Char) : Bool :=
  c = ' ' || c = '\t' || c = '\n' || c = '\r'

/-- Python `str.strip()` whitespace (ASCII part; unicode spaces unmodelled). -/
def isPyWs (c : Char) : Bool :=
  c = ' ' || c = '\t' || c = '\n' || c = '\r' || c = '\x0b' || c = '\x0c'

/-- Skip JSON whitespace. -/
def skipWs (cs : List Char) : List Char := cs.dropWhile isJsonWs

/-- Remove the maximal all-whitespace suffix (the trailing half of
Python `str.strip()`). -/
def dropTrail (cs : List Char) : List Char :=
  match cs with
  | [] => []
  | c :: rest =>
    match dropTrail rest with
    | [] => if isPyWs c then [] else [c]
    | r => c :: r

/-- Python `str.strip()` on a character list. -/
def pyStripL (cs : List Char) : List Char :=
  dropTrail (cs.dropWhile isPyWs)

/-- Python `str.strip()`. -/
def pyStripStr (s : String) : String := String.mk (pyStripL s.data)

/-- Value of a hexadecimal digit. -/
def hexDigitVal (c : Char) : Option Nat :=
  if '0' ≤ c ∧ c ≤ '9' then some (c.toNat - 48)
  else if 'a' ≤ c ∧ c ≤ 'f' then some (c.toNat - 87)
  else if 'A' ≤ c ∧ c ≤ 'F' then some (c.toNat - 55)
  else none

/-- Single-character JSON string escapes. -/
def escCharMap (e : Char) : Option Char :=
  if e = '"' then some '"'
  else if e = '\\' then some '\\'
  else if e = '/' then some '/'
  else if e = 'b' then some (Char.ofNat 8)
  else if e = 'f' then some (Char.ofNat 12)
  else if e = 'n' then some '\n'
  else if e = 'r' then some '\r'
  else if e = 't' then some '\t'
  else none

/-- Body of a JSON string after the opening quote: returns the decoded
characters and the input remaining after the closing quote.  Python rejects
unescaped control characters in strict mode, modelled by the `toNat < 32`
check.  Surrogate-pair recombination of `\uXXXX` escapes is not modelled. -/
def parseStrAux : Nat → List Char → Option (List Char × List Char)
  | 0, _ => none
  | _ + 1, [] => none
  | f + 1, c :: rest =>
    if c = '"' then some ([], rest)
    else if c = '\\' then
      match rest with
      | [] => none
      | e :: rest2 =>
        if e = 'u' then
          match rest2 with
          | h1 :: h2 :: h3 :: h4 :: rest3 =>
            match hexDigitVal h1, hexDigitVal h2, hexDigitVal h3, hexDigitVal h4 with
            | some a, some b, some c2, some d =>
              match parseStrAux f rest3 with
              | some (out, rem) =>
                some (Char.ofNat (((a * 16 + b) * 16 + c2) * 16 + d) :: out, rem)
              | none => none
            | _, _, _, _ => none
          | _ => none
        else
          match escCharMap e with
          | some ec =>
            match parseStrAux f rest2 with
            | some (out, rem) => some (ec :: out, rem)
            | none => none
          | none => none
    else if c.toNat < 32 then none
    else
      match parseStrAux f rest with
      | some (out, rem) => some (c :: out, rem)
      | none => none

/-- Fold decimal digits into a number. -/
def natOfDigits (ds : List Char) : Nat :=
  ds.foldl (fun n c => n * 10 + (c.toNat - 48)) 0

/-- Whether a numeral may stop here: Python would instead continue parsing a
float when a fraction or exponent part follows, which this integer-only model
treats as failure. -/
def numStop : List Char → Bool
  | [] => true
  | c :: _ => !(c = '.' || c = 'e' || c = 'E')

/-- Parse a run of decimal digits (an integer numeral body).  Leading-zero
rejection by Python json is not modelled. -/
def parseDigits (cs : List Char) : Option (Nat × List Char) :=
  let ds := cs.takeWhile Char.isDigit
  let r := cs.dropWhile Char.isDigit
  if ds = [] then none
  else if numStop r then some (natOfDigits ds, r) else none

/-- Match the characters of `lit` at the head of the input, returning the
remainder (the scanner step for the literals `true`, `false`, `null`). -/
def dropLit : List Char → List Char → Option (List Char)
  | [], cs => some cs
  | _ :: _, [] => none
  | l :: ls, c :: cs => if c = l then dropLit ls cs else none

mutual

/-- One JSON value, expected at the head of the input (no leading-whitespace
skip, as in `json.JSONDecoder().raw_decode`); returns the value and the
unconsumed input.  First fuel-match argument decreases on every call. -/
def parseVal : Nat → List Char → Option (Json × List Char)
  | 0, _ => none
  | _ + 1, [] => none
  | f + 1, c :: rest =>
    if c = '{' then
      match skipWs rest with
      | [] => none
      | c2 :: r2 =>
        if c2 = '}' then some (Json.obj [], r2) else parseMembers f (c2 :: r2) []
    else if c = '[' then
      match skipWs rest with
      | [] => none
      | c2 :: r2 =>
        if c2 = ']' then some (Json.arr [], r2) else parseItems f (c2 :: r2) []
    else if c = '"' then
      match parseStrAux (f + 1) rest with
      | some (out, rem) => some (Json.str (String.mk out), rem)
      | none => none
    else if c = 't' then
      match dropLit ['r', 'u', 'e'] rest with
      | some r => some (Json.bool true, r)
      | none => none
    else if c = 'f' then
      match dropLit ['a', 'l', 's', 'e'] rest with
      | some r => some (Json.bool false, r)
      | none => none
    else if c = 'n' then
      match dropLit ['u', 'l', 'l'] rest with
      | some r => some (Json.null, r)
      | none => none
    else if c = '-' then
      match parseDigits rest with
      | some (n, r) => some (Json.num (-(n : Int)), r)
      | none => none
    else if c.isDigit then
      match parseDigits (c :: rest) with
      | some (n, r) => some (Json.num (n : Int), r)
      | none => none
    else none

/-- Members of a JSON object after at least one member is known to follow
(whitespace already skipped). -/
def parseMembers : Nat → List Char → List (String × Json) → Option (Json × List Char)
  | 0, _, _ => none
  | _ + 1, [], _ => none
  | f + 1, c :: rest, acc =>
    if c = '"' then
      match parseStrAux (f + 1) rest with
      | none => none
      | some (keyChars, r1) =>
        match skipWs r1 with
        | [] => none
        | c2 :: r3 =>
          if c2 = ':' then
            match parseVal f (skipWs r3) with
            | none => none
            | some (v, r4) =>
              match skipWs r4 with
              | [] => none
              | c3 :: r6 =>
                if c3 = ',' then parseMembers f (skipWs r6) (acc ++ [(String.mk keyChars, v)])
                else if c3 = '}' then some (Json.obj (acc ++ [(String.mk keyChars, v)]), r6)
                else none
          else none
    else none

/-- Items of a JSON array after at least one item is known to follow
(whitespace already skipped). -/
def parseItems : Nat → List Char → List Json → Option (Json × List Char)
  | 0, _, _ => none
  | f + 1, cs, acc =>
    match parseVal f cs with
    | none => none
    | some (v, r) =>
      match skipWs r with
      | [] => none
      | c3 :: r3 =>
        if c3 = ',' then parseItems f (skipWs r3) (acc ++ [v])
        else if c3 = ']' then some (Json.arr (acc ++ [v]), r3)
        else none

end

/-- Python `json.loads` on a character list: skip surrounding whitespace,
parse one value, fail unless only whitespace remains. -/
def loadsL (cs : List Char) : Option Json :=
  match parseVal (cs.length + 1) (skipWs cs) with
  | some (v, r) => if skipWs r = [] then some v else none
  | none => none

/-- Python `json.loads` on a string. -/
def pyJsonLoads (s : String) : Option Json := loadsL s.data

/-- The brace scan of `_extract_json_payload`: at each `{` character, attempt
`raw_decode` from that position and return the first success.  `raw_decode`
at a brace either fails or yields that object, ignoring trailing input. -/
def braceScanAux (fuel : Nat) : List Char → Option Json
  | [] => none
  | c :: rest =>
    if c = '{' then
      match parseVal fuel (c :: rest) with
      | some (v, _) => some v
      | none => braceScanAux fuel rest
    else braceScanAux fuel rest

/-- Case-insensitive match of the four characters `json`, consuming them.
Part of the model of `re.sub(r"^```(?:json)?\\s*", "", candidate, re.I)`. -/
def dropJsonCI : List Char → Option (List Char)
  | a :: b :: c :: d :: rest =>
    if a.toLower = 'j' ∧ b.toLower = 's' ∧ c.toLower = 'o' ∧ d.toLower = 'n' then
      some rest
    else none
  | _ => none

/-- The tail of the leading-fence pattern: the source regex is the raw string
`^```(?:json)?\\s*`, in which `\\` matches one literal backslash character and
`s*` a run of letters s (case-insensitive via `re.IGNORECASE`), NOT arbitrary
whitespace -- the doubled backslash in the Python raw string makes the class
escape a literal backslash.  So after the backquotes and the optional tag the
pattern requires a literal backslash. -/
def dropSlashSRun : List Char → Option (List Char)
  | [] => none
  | c :: r => if c = '\\' then some (r.dropWhile (fun x => x = 's' || x = 'S')) else none

/-- Model of `re.sub(r"^```(?:json)?\\s*", "", candidate, flags=re.IGNORECASE)`
on the stripped candidate: remove the anchored match if any, trying the
greedy alternative (tag present) first as the regex engine does. -/
def stripLead (cs : List Char) : List Char :=
  match cs with
  | a :: b :: c :: rest =>
    if a = bqChar ∧ b = bqChar ∧ c = bqChar then
      match (dropJsonCI rest).bind dropSlashSRun with
      | some r => r
      | none =>
        match dropSlashSRun rest with
        | some r => r
        | none => cs
    else cs
  | _ => cs

/-- Model of `re.sub(r"\\s*```$", "", candidate)` on the stripped candidate
(so `$` is the true end): the pattern is one literal backslash, a run of
letters s (case-sensitive here), then three backquotes at the end; at most
one such suffix can exist.  Implemented by peeling the reversed list. -/
def stripTrail (cs : List Char) : List Char :=
  match cs.reverse with
  | a :: b :: c :: r =>
    if a = bqChar ∧ b = bqChar ∧ c = bqChar then
      match r.dropWhile (fun x => x = 's') with
      | [] => cs
      | c4 :: r3 => if c4 = '\\' then r3.reverse else cs
    else cs
  | _ => cs

/-- Whether the stripped candidate starts with three backquotes
(`candidate.startswith("```")`). -/
def isFenceStart : List Char → Bool
  | a :: b :: c :: _ => a = bqChar && b = bqChar && c = bqChar
  | _ => false

/-- `RAGPipeline._extract_json_payload` on a character list: strip, fail on
empty, apply the two fence substitutions when the text starts with three
backquotes, try a direct `json.loads`, then scan for a decodable `{`.
Errors carry the `ValueError` message raised by the source. -/
def extractJsonCore (cs0 : List Char) : Except String Json :=
  let c1 := pyStripL cs0
  if c1 = [] then Except.error "Empty response"
  else
    let c2 := if isFenceStart c1 then stripTrail (stripLead c1) else c1
    match loadsL c2 with
    | some v => Except.ok v
    | none =>
      match braceScanAux (c2.length + 1) c2 with
      | some v => Except.ok v
      | none => Except.error "Could not parse JSON payload"

/-- `RAGPipeline._extract_json_payload`. -/
def extract_json_payload (text : String) : Except String Json :=
  extractJsonCore text.data

example : pyJsonLoads "[1, 2]" = some (Json.arr [Json.num 1, Json.num 2]) := rfl

example : extract_json_payload "[1, 2]" = Except.ok (Json.arr [Json.num 1, Json.num 2]) := rfl

example : extract_json_payload "hello there" = Except.error "Could not parse JSON payload" := rfl

example : pyJsonLoads "\x7b\"a\": [true, null, -3]\x7d" =
    some (Json.obj [("a", Json.arr [Json.bool true, Json.null, Json.num (-3)])]) := rfl

example : extract_json_payload "```json\n\x7b\"topic\": \"x\"\x7d\n```" =
    Except.ok (Json.obj [("topic", Json.str "x")]) := rfl

example : extract_json_payload "Here is your exam: \x7b\"topic\":\"x\",\"mcqs\":[]\x7d" =
    Except.ok (Json.obj [("topic", Json.str "x"), ("mcqs", Json.arr [])]) := rfl

/-- Single-quote character, written via its code point. -/
def sqChar : Char := Char.ofNat 39

mutual

/-- Python `repr` of a parsed-JSON value, used by `str()` on containers.
String escaping inside `repr` is approximated (quotes are not switched or
escaped); no theorem depends on the exact repr text. -/
def pyRepr : Json → String
  | Json.null => "None"
  | Json.bool true => "True"
  | Json.bool false => "False"
  | Json.num n => toString n
  | Json.str s => String.mk (sqChar :: s.data ++ [sqChar])
  | Json.arr items => "[" ++ pyReprItems items ++ "]"
  | Json.obj kvs => "\x7b" ++ pyReprMembers kvs ++ "\x7d"

/-- Comma-separated reprs of list items. -/
def pyReprItems : List Json → String
  | [] => ""
  | [x] => pyRepr x
  | x :: xs => pyRepr x ++ ", " ++ pyReprItems xs

/-- Comma-separated reprs of dict members. -/
def pyReprMembers : List (String × Json) → String
  | [] => ""
  | [(k, v)] => String.mk (sqChar :: k.data ++ [sqChar]) ++ ": " ++ pyRepr v
  | (k, v) :: xs =>
    String.mk (sqChar :: k.data ++ [sqChar]) ++ ": " ++ pyRepr v ++ ", " ++ pyReprMembers xs

end

/-- Python `str()` of a parsed-JSON value. -/
def pyStr : Json → String
  | Json.str s => s
  | Json.num n => toString n
  | Json.bool true => "True"
  | Json.bool false => "False"
  | Json.null => "None"
  | v => pyRepr v

/-- Python `int()` of a string: surrounding whitespace stripped, optional
sign, then decimal digits (underscore digit separators unmodelled);
`ValueError` is `none`. -/
def pyIntOfString (s : String) : Option Int :=
  let cs := pyStripL s.data
  let core : Option (Bool × List Char) :=
    match cs with
    | '-' :: r => some (true, r)
    | '+' :: r => some (false, r)
    | r => some (false, r)
  match core with
  | some (neg, ds) =>
    if ds = [] then none
    else if ds.all Char.isDigit then
      some (if neg then -(natOfDigits ds : Int) else (natOfDigits ds : Int))
    else none
  | none => none

/-- Python `int()` of a parsed-JSON value: ints pass through, bools map to
0/1, strings are parsed, everything else raises (`none`).  Parsed JSON never
contains floats here (integer-only numeral model). -/
def pyInt : Json → Option Int
  | Json.num n => some n
  | Json.bool b => some (if b then 1 else 0)
  | Json.str s => pyIntOfString s
  | _ => none

/-- Python `dict.get` on the member list of a JSON object: last binding of
the key wins, as when Python builds the dict. -/
def jGet (kvs : List (String × Json)) (key : String) : Option Json :=
  (kvs.reverse.find? (fun p => p.1 == key)).map (fun p => p.2)

/-- Python iteration (`for x in v`) over a parsed-JSON value: lists yield
their items, strings their one-character substrings, dicts their keys;
numbers, booleans and `None` raise `TypeError` (`none`). -/
def toIter : Json → Option (List Json)
  | Json.arr xs => some xs
  | Json.str s => some (s.data.map (fun c => Json.str (String.mk [c])))
  | Json.obj kvs => some (kvs.map (fun p => Json.str p.1))
  | _ => none

/-- A normalized multiple-choice question. -/
structure MCQ where
  id : String
  question : String
  options : List String
  correct_option_index : Int
  explanation : String
deriving Repr, DecidableEq

/-- A normalized essay question. -/
structure Essay where
  id : String
  question : String
  model_answer : String
deriving Repr, DecidableEq

/-- The canonical exam structure produced by `_normalize_exam_payload`. -/
structure ExamSpec where
  topic : String
  difficulty : String
  mcqs : List MCQ
  essays : List Essay
deriving Repr, DecidableEq

/-- `str(q.get("question", "")).strip()` for an MCQ or essay entry. -/
def entryQuestion (kvs : List (String × Json)) : String :=
  pyStripStr (pyStr ((jGet kvs "question").getD (Json.str "")))

/-- `[str(opt).strip() for opt in options if str(opt).strip()]`. -/
def filterOptions (opts : List Json) : List String :=
  (opts.map (fun o => pyStripStr (pyStr o))).filter (fun s => !s.isEmpty)

/-- The MCQ loop of `_normalize_exam_payload` (`enumerate(mcqs_in, start=1)`
supplies `i`).  Non-dict entries and entries with an empty question or fewer
than two non-empty options are skipped; a dict entry whose `options` value is
not iterable raises `TypeError` (result `none`), aborting the whole
normalization. -/
def normMCQs : List Json → Nat → Option (List MCQ)
  | [], _ => some []
  | q :: rest, i =>
    match q with
    | Json.obj kvs =>
      match toIter ((jGet kvs "options").getD (Json.arr [])) with
      | none => none
      | some opts =>
        let question := entryQuestion kvs
        let options := filterOptions opts
        if question.isEmpty || options.length < 2 then normMCQs rest (i + 1)
        else
          let idx : Int := (pyInt ((jGet kvs "correct_option_index").getD (Json.num 0))).getD 0
          let idx := max 0 (min idx ((options.length : Int) - 1))
          (normMCQs rest (i + 1)).map (fun ms =>
            { id := pyStr ((jGet kvs "id").getD (Json.str ("MCQ-" ++ toString i)))
              question := question
              options := options
              correct_option_index := idx
              explanation := pyStripStr (pyStr ((jGet kvs "explanation").getD (Json.str ""))) } :: ms)
    | _ => normMCQs rest (i + 1)

/-- The essay loop of `_normalize_exam_payload`: non-dict entries and entries
with an empty question are skipped; nothing in this loop can raise. -/
def normEssays : List Json → Nat → List Essay
  | [], _ => []
  | q :: rest, i =>
    match q with
    | Json.obj kvs =>
      let question := entryQuestion kvs
      if question.isEmpty then normEssays rest (i + 1)
      else
        { id := pyStr ((jGet kvs "id").getD (Json.str ("ESSAY-" ++ toString i)))
          question := question
          model_answer := pyStripStr (pyStr ((jGet kvs "model_answer").getD (Json.str ""))) }
          :: normEssays rest (i + 1)
    | _ => normEssays rest (i + 1)

/-- `RAGPipeline._normalize_exam_payload(payload, topic, difficulty)`.
`none` models the `TypeError` Python raises when `payload["mcqs"]` or
`payload["essays"]` is a non-iterable value (caught further up in `query`). -/
def normalize_exam_payload (payload : Json) (topic difficulty : String) : Option ExamSpec :=
  let mcqsIn : Json :=
    match payload with
    | Json.obj kvs => (jGet kvs "mcqs").getD (Json.arr [])
    | _ => Json.arr []
  let essaysIn : Json :=
    match payload with
    | Json.obj kvs => (jGet kvs "essays").getD (Json.arr [])
    | _ => Json.arr []
  match toIter mcqsIn, toIter essaysIn with
  | some mlist, some elist =>
    match normMCQs mlist 1 with
    | none => none
    | some mcqs =>
      some
        { topic :=
            match payload with
            | Json.obj kvs => pyStripStr (pyStr ((jGet kvs "topic").getD (Json.str topic)))
            | _ => topic
          difficulty :=
            match payload with
            | Json.obj kvs => pyStripStr (pyStr ((jGet kvs "difficulty").getD (Json.str difficulty)))
            | _ => difficulty
          mcqs := mcqs
          essays := normEssays elist 1 }
  | _, _ => none

/-- Payload of the spec example: an MCQ with `correct_option_index = 99` and
4 options. -/
def ex99Payload : Json :=
  Json.obj
    [("mcqs",
      Json.arr
        [Json.obj
          [("question", Json.str "Pick one"),
           ("options", Json.arr [Json.str "a", Json.str "b", Json.str "c", Json.str "d"]),
           ("correct_option_index", Json.num 99)]])]

/-- Payload whose index does not coerce to an integer. -/
def exBadIdxPayload : Json :=
  Json.obj
    [("mcqs",
      Json.arr
        [Json.obj
          [("question", Json.str "Pick one"),
           ("options", Json.arr [Json.str "a", Json.str "b"]),
           ("correct_option_index", Json.str "abc")]])]

/-- A valid MCQ entry used in several concrete payloads. -/
def validMCQEntry : Json :=
  Json.obj
    [("id", Json.str "MCQ-A"),
     ("question", Json.str "Valid?"),
     ("options", Json.arr [Json.str "yes", Json.str "no"]),
     ("correct_option_index", Json.num 1),
     ("explanation", Json.str "ok")]

/-- Payload of the spec example: one MCQ with a single option followed by a
valid MCQ. -/
def exOneOptPayload : Json :=
  Json.obj
    [("mcqs",
      Json.arr
        [Json.obj
          [("question", Json.str "Lonely"),
           ("options", Json.arr [Json.str "only"])],
         validMCQEntry])]

/-- Payload with an empty-question MCQ entry whose `options` value is the
number 5: iterating over it raises `TypeError` in Python, so the whole
normalization fails instead of silently dropping the entry. -/
def exCrashPayload : Json :=
  Json.obj
    [("mcqs",
      Json.arr
        [Json.obj [("question", Json.str ""), ("options", Json.num 5)],
         validMCQEntry])]

example :
    (normalize_exam_payload ex99Payload "T" "Beginner").map
      (fun s => s.mcqs.map MCQ.correct_option_index) = some [3] := rfl

example :
    (normalize_exam_payload exBadIdxPayload "T" "Beginner").map
      (fun s => s.mcqs.map MCQ.correct_option_index) = some [0] := rfl

example :
    normalize_exam_payload exOneOptPayload "T" "Beginner" =
      some
        { topic := "T", difficulty := "Beginner"
          mcqs := [{ id := "MCQ-A", question := "Valid?", options := ["yes", "no"],
                     correct_option_index := 1, explanation := "ok" }]
          essays := [] } := rfl

example : normalize_exam_payload exCrashPayload "T" "Beginner" = none := rfl

/-- Hexadecimal digit character (lowercase). -/
def hexDigitChar (n : Nat) : Char :=
  if n < 10 then Char.ofNat (48 + n) else Char.ofNat (87 + n)

/-- Four-digit hexadecimal rendering used by `ensure_ascii` escapes. -/
def hex4 (n : Nat) : String :=
  String.mk
    [hexDigitChar (n / 4096 % 16), hexDigitChar (n / 256 % 16),
     hexDigitChar (n / 16 % 16), hexDigitChar (n % 16)]

/-- `json.dumps` escaping of one string character with `ensure_ascii=True`.
Characters beyond the basic multilingual plane would use surrogate pairs in
Python; that detail is not modelled. -/
def jsonEscChar (c : Char) : String :=
  if c = '"' then "\\\""
  else if c = '\\' then "\\\\"
  else if c = '\n' then "\\n"
  else if c = '\t' then "\\t"
  else if c = '\r' then "\\r"
  else if c.toNat < 32 || c.toNat > 126 then "\\u" ++ hex4 c.toNat
  else String.mk [c]

/-- `json.dumps` rendering of a string. -/
def dumpsStr (s : String) : String :=
  "\"" ++ String.join (s.data.map jsonEscChar) ++ "\""

mutual

/-- `json.dumps(v, ensure_ascii=True)` with the default separators. -/
def dumpsJson : Json → String
  | Json.null => "null"
  | Json.bool true => "true"
  | Json.bool false => "false"
  | Json.num n => toString n
  | Json.str s => dumpsStr s
  | Json.arr items => "[" ++ dumpsItems items ++ "]"
  | Json.obj kvs => "\x7b" ++ dumpsMembers kvs ++ "\x7d"

/-- Comma-separated dumps of array items. -/
def dumpsItems : List Json → String
  | [] => ""
  | [x] => dumpsJson x
  | x :: xs => dumpsJson x ++ ", " ++ dumpsItems xs

/-- Comma-separated dumps of object members. -/
def dumpsMembers : List (String × Json) → String
  | [] => ""
  | [(k, v)] => dumpsStr k ++ ": " ++ dumpsJson v
  | (k, v) :: xs => dumpsStr k ++ ": " ++ dumpsJson v ++ ", " ++ dumpsMembers xs

end

/-- The dict `query` builds from a normalized exam before `json.dumps`
(insertion order of `_normalize_exam_payload`). -/
def examToJson (e : ExamSpec) : Json :=
  Json.obj
    [("topic", Json.str e.topic),
     ("difficulty", Json.str e.difficulty),
     ("mcqs",
      Json.arr
        (e.mcqs.map (fun m =>
          Json.obj
            [("id", Json.str m.id),
             ("question", Json.str m.question),
             ("options", Json.arr (m.options.map Json.str)),
             ("correct_option_index", Json.num m.correct_option_index),
             ("explanation", Json.str m.explanation)]))),
     ("essays",
      Json.arr
        (e.essays.map (fun q =>
          Json.obj
            [("id", Json.str q.id),
             ("question", Json.str q.question),
             ("model_answer", Json.str q.model_answer)])))]

/-- `json.dumps(exam, ensure_ascii=True)` in `query`. -/
def dumpsExam (e : ExamSpec) : String := dumpsJson (examToJson e)

/-- Marker for the text of the `TypeError` Python raises when a payload field
is not iterable; the exact provider message is irrelevant to every claim. -/
def typeErrorText : String := "TypeError"

/-- The try-block of `RAGPipeline.query` after retrieval: the completion
outcome (normal content or raised exception text) is a parameter, `sources`
is the set of source identifiers computed before the try.  Any exception —
from the completion call, from `_extract_json_payload`, or the `TypeError`
out of `_normalize_exam_payload` — is caught and turned into an
`"Error calling AI: ..."` string, so the caller always receives text. -/
def queryResult (mode topic difficulty : String) (sources : List String)
    (completion : Except String String) : String × List String :=
  match completion with
  | Except.error e => ("Error calling AI: " ++ e, sources)
  | Except.ok raw =>
    if mode = "Instructor Mode" then
      match extract_json_payload raw with
      | Except.error msg => ("Error calling AI: " ++ msg, sources)
      | Except.ok payload =>
        match normalize_exam_payload payload topic difficulty with
        | none => ("Error calling AI: " ++ typeErrorText, sources)
        | some exam => (dumpsExam exam, sources)
    else (raw, sources)

/-- The try-block of `RAGPipeline.grade_submission`: returns the model text,
or `"Grading Error: ..."` when the completion call raises. -/
def grade_submission (completion : Except String String) : String :=
  match completion with
  | Except.ok content => content
  | Except.error e => "Grading Error: " ++ e

/-- Attempt of the first Auto-Grade pattern at the head of the input.  The
source pattern is the raw string `(\\d+)/100`, i.e. one literal backslash,
a run of letters d, then `/100`; the doubled backslash in the raw string
escapes a literal backslash instead of forming the digit class `\d`.  The
captured group includes the backslash. -/
def tryPat1 (cs : List Char) : Option String :=
  match cs with
  | '\\' :: rest =>
    let ds := rest.takeWhile (fun c => c = 'd')
    if ds = [] then none
    else if (rest.dropWhile (fun c => c = 'd')).take 4 = ['/', '1', '0', '0'] then
      some (String.mk ('\\' :: ds))
    else none
  | _ => none

/-- Attempt of the second Auto-Grade pattern at the head of the input.  The
source pattern is the raw string `Score:\\s*(\\d+)` with `re.I`: the text
`Score:` case-insensitively, one literal backslash, a run of letters s/S,
then the captured group of one literal backslash and a run of letters d/D. -/
def tryPat2 (cs : List Char) : Option String :=
  match cs with
  | a :: b :: c :: d :: e :: f :: rest =>
    if a.toLower = 's' ∧ b.toLower = 'c' ∧ c.toLower = 'o' ∧ d.toLower = 'r'
        ∧ e.toLower = 'e' ∧ f = ':' then
      match rest with
      | '\\' :: r2 =>
        match r2.dropWhile (fun x => x = 's' || x = 'S') with
        | '\\' :: r4 =>
          let ds := r4.takeWhile (fun x => x = 'd' || x = 'D')
          if ds = [] then none else some (String.mk ('\\' :: ds))
        | _ => none
      | _ => none
    else none
  | _ => none

/-- `re.search`: first position, scanning left to right, where the pattern
attempt succeeds. -/
def searchFirst (pat : List Char → Option String) : List Char → Option String
  | [] => none
  | c :: rest =>
    match pat (c :: rest) with
    | some g => some g
    | none => searchFirst pat rest

/-- The Auto-Grade score extraction in `app.py`: search the first pattern,
fall back to the second, take `int(group(1))`, and default to 0 when nothing
matched or `int` raised. -/
def extract_score (res : String) : Int :=
  match searchFirst tryPat1 res.data with
  | some g => (pyIntOfString g).getD 0
  | none =>
    match searchFirst tryPat2 res.data with
    | some g => (pyIntOfString g).getD 0
    | none => 0

/-- Modelled from the spec: the external `RecursiveCharacterTextSplitter`
(library code, not in this repository) splits each document into chunks of
about 1000 characters with 150 overlap.  Only two consequences are used by
any claim: an empty document yields no chunks and a non-empty one yields at
least one. -/
def splitChunks : Nat → List Char → List (List Char)
  | 0, _ => []
  | _ + 1, [] => []
  | f + 1, c :: rest =>
    if (c :: rest).length ≤ 1000 then [c :: rest]
    else (c :: rest).take 1000 :: splitChunks f ((c :: rest).drop 850)

/-- Chunking of one document text (fuel `length + 1` always suffices, since
every recursive step drops 850 characters). -/
def splitText (s : String) : List String :=
  (splitChunks (s.data.length + 1) s.data).map String.mk

/-- `file.lower().endswith(".pdf")`. -/
def isPdfName (name : String) : Bool :=
  match (name.data.map Char.toLower).reverse with
  | 'f' :: 'd' :: 'p' :: '.' :: _ => true
  | _ => false

/-- The ingestion loop of `RAGPipeline.__init__`: a file is a name plus
either its loaded page texts or `none` when `PyPDFLoader` raises (the file is
then skipped by the `except: continue`). -/
def ingestDocs : List (String × Option (List String)) → List String
  | [] => []
  | (name, content) :: rest =>
    if isPdfName name then
      match content with
      | some ds => ds ++ ingestDocs rest
      | none => ingestDocs rest
    else ingestDocs rest

/-- All chunks produced from a folder. -/
def buildChunks (files : List (String × Option (List String))) : List String :=
  (ingestDocs files).flatMap splitText

/-- Message of the exception raised on an empty corpus (the source text wraps
pdfs in single quotes; the quotes are omitted here). -/
def corpusEmptyMessage : String := "No PDF content found in pdfs folder."

/-- `RAGPipeline.__init__`: load the persisted index when present; otherwise
ingest, split, and either raise on zero chunks or build the index (modelled
by its chunk list) and persist it.  `FAISS.save_local` is not guarded by any
try/except in the source, so a persistence failure propagates out of
`__init__` and construction fails. -/
def initPipeline (persisted : Option (List String))
    (files : List (String × Option (List String)))
    (saveResult : Except String Unit) : Except String (List String) :=
  match persisted with
  | some idx => Except.ok idx
  | none =>
    let chunks := buildChunks files
    if chunks.isEmpty then Except.error corpusEmptyMessage
    else
      match saveResult with
      | Except.ok _ => Except.ok chunks
      | Except.error e => Except.error e

/-- Python truthiness of a parsed-JSON value. -/
def jTruthy : Json → Bool
  | Json.null => false
  | Json.bool b => b
  | Json.num n => n != 0
  | Json.str s => !s.isEmpty
  | Json.arr xs => !xs.isEmpty
  | Json.obj kvs => !kvs.isEmpty

/-- Truthiness of `d.get(key)` (absent keys give falsy `None`). -/
def jGetTruthy (kvs : List (String × Json)) (key : String) : Bool :=
  match jGet kvs key with
  | some v => jTruthy v
  | none => false

/-- `parse_json_blob` in `app.py`: empty text gives `None`; otherwise strip,
apply the same (inert) fence substitutions as the pipeline, then a single
direct `json.loads` — no brace scan here — keeping the result only when it is
a dict. -/
def parse_json_blob (text : String) : Option Json :=
  if text = "" then none
  else
    let c1 := pyStripL text.data
    let c2 := if isFenceStart c1 then stripTrail (stripLead c1) else c1
    match loadsL c2 with
    | some v => if isObjJ v then some v else none
    | none => none

/-- The content stored by the Save Exam handler: the re-serialized exam when
`parse_json_blob` yields a dict with truthy `mcqs` or `essays`, otherwise the
raw text itself (the degraded path, shown with a warning). -/
def storedContent (text : String) : String :=
  match parse_json_blob text with
  | some (Json.obj kvs) =>
    if jTruthy (Json.obj kvs) && (jGetTruthy kvs "mcqs" || jGetTruthy kvs "essays") then
      dumpsJson (Json.obj kvs)
    else text
  | _ => text

example : extract_score "Score: 87/100\nGood work" = 0 := rfl
example : extract_score "No score info" = 0 := rfl
example : extract_score "\\ddd/100" = 0 := rfl
example : initPipeline none [("a.pdf", some ["hello"])] (Except.ok ()) = Except.ok ["hello"] := rfl
example : initPipeline none [("a.pdf", some ["hello"])] (Except.error "disk full") =
    Except.error "disk full" := rfl
example : initPipeline none [("a.txt", some ["hello"]), ("b.pdf", none)] (Except.ok ()) =
    Except.error corpusEmptyMessage := rfl
example : storedContent "Error calling AI: nope" = "Error calling AI: nope" := rfl
example :
    (queryResult "Instructor Mode" "T" "B" [] (Except.ok "hello there")).1 =
      "Error calling AI: Could not parse JSON payload" := rfl

/-- Safety of appending `tail` after a completed parse: nothing at the head
of `tail` may extend a numeral that ended exactly at the end of the parsed
text (a digit would be absorbed into the number, a fraction/exponent mark
would make the integer-only numeral parse fail). -/
def numTailSafe (tail : List Char) : Prop :=
  tail.takeWhile Char.isDigit = [] ∧ numStop tail = true

/-- Appending `tail` does not disturb a parse that ended with rest `r`:
either some input was left over (so every token ended inside the original
text) or `tail` cannot extend a final numeral. -/
def restTailOk (r tail : List Char) : Prop := r ≠ [] ∨ numTailSafe tail

theorem pyWs_of_jsonWs {c : Char} (h : isJsonWs c = true) : isPyWs c = true := by
  simp only [isJsonWs, Bool.or_eq_true, decide_eq_true_eq] at h
  simp only [isPyWs, Bool.or_eq_true, decide_eq_true_eq]
  tauto

theorem dropTrail_of_all_not_ws :
    ∀ {l : List Char}, (∀ c ∈ l, isPyWs c = false) → dropTrail l = l := by
  intro l
  induction l with
  | nil => intro _; rfl
  | cons c rest ih =>
    intro h
    have hrest := ih (fun x hx => h x (List.mem_cons_of_mem c hx))
    have hc := h c (List.mem_cons_self c rest)
    simp only [dropTrail, hrest]
    cases rest with
    | nil => simp [hc]
    | cons d t => rfl

theorem dropTrail_cons_shape (c : Char) (l : List Char) :
    dropTrail (c :: l) = [] ∨ ∃ t, dropTrail (c :: l) = c :: t := by
  simp only [dropTrail]
  cases h : dropTrail l with
  | nil =>
    by_cases hc : isPyWs c = true
    · left; simp [hc]
    · right; exact ⟨[], by simp [hc]⟩
  | cons d t => right; exact ⟨d :: t, rfl⟩

theorem dropTrail_cons_ne_nil {c : Char} (hc : isPyWs c = false) (l : List Char) :
    dropTrail (c :: l) ≠ [] := by
  simp only [dropTrail]
  cases h : dropTrail l with
  | nil => simp [hc]
  | cons d t => simp

theorem pyStripL_cons_not_ws {c : Char} (hc : isPyWs c = false) (l : List Char) :
    ∃ t, pyStripL (c :: l) = c :: t := by
  simp only [pyStripL, List.dropWhile_cons, hc, Bool.false_eq_true, if_false]
  rcases dropTrail_cons_shape c l with h | ⟨t, ht⟩
  · exact absurd h (dropTrail_cons_ne_nil hc l)
  · exact ⟨t, ht⟩

theorem string_data_append (a b : String) : (a ++ b).data = a.data ++ b.data := rfl

theorem parseVal_letterE (f : Nat) (t : List Char) : parseVal f ('E' :: t) = none := by
  cases f with
  | zero => rfl
  | succ f => simp +decide [parseVal]

theorem searchFirst_shape {pat : List Char → Option String} :
    ∀ {cs g}, searchFirst pat cs = some g → ∃ cs2, pat cs2 = some g := by
  intro cs
  induction cs with
  | nil => intro g h; simp [searchFirst] at h
  | cons c rest ih =>
    intro g h
    simp only [searchFirst] at h
    cases hp : pat (c :: rest) with
    | some g2 => rw [hp] at h; exact ⟨c :: rest, hp ▸ h⟩
    | none => rw [hp] at h; exact ih h

theorem tryPat1_shape {cs : List Char} {g : String}
    (h : tryPat1 cs = some g) :
    ∃ ds, g = String.mk ('\\' :: ds) ∧ ∀ c ∈ ds, c = 'd' := by
  match cs with
  | [] => simp [tryPat1] at h
  | c :: rest =>
    simp only [tryPat1] at h
    split at h
    · next heq =>
      rename_i rest2
      split at h
      · simp at h
      · split at h
        · refine ⟨rest2.takeWhile (fun c => c = 'd'), ?_, ?_⟩
          · simpa using h.symm
          · intro x hx
            have := List.mem_takeWhile_imp hx
            simpa using this
        · simp at h
    · simp at h

theorem tryPat2_shape {cs : List Char} {g : String}
    (h : tryPat2 cs = some g) :
    ∃ ds, g = String.mk ('\\' :: ds) ∧ ∀ c ∈ ds, c = 'd' ∨ c = 'D' := by
  match cs with
  | [] => simp [tryPat2] at h
  | [a] => simp [tryPat2] at h
  | [a, b] => simp [tryPat2] at h
  | [a, b, c] => simp [tryPat2] at h
  | [a, b, c, d] => simp [tryPat2] at h
  | [a, b, c, d, e] => simp [tryPat2] at h
  | a :: b :: c :: d :: e :: f :: rest =>
    simp only [tryPat2] at h
    split at h
    · split at h
      · next heq =>
        rename_i r2
        split at h
        · next heq2 =>
          rename_i r4
          split at h
          · simp at h
          · refine ⟨r4.takeWhile (fun x => x = 'd' || x = 'D'), ?_, ?_⟩
            · simpa using h.symm
            · intro x hx
              have := List.mem_takeWhile_imp hx
              simpa using this
        · simp at h
      · simp at h
    · simp at h

theorem pyIntOfString_backslash_run {ds : List Char}
    (hds : ∀ c ∈ ds, c = 'd' ∨ c = 'D') :
    pyIntOfString (String.mk ('\\' :: ds)) = none := by
  have hall : ∀ c ∈ ('\\' :: ds), isPyWs c = false := by
    intro c hc
    rcases List.mem_cons.mp hc with h | h
    · subst h; decide
    · rcases hds c h with h | h <;> (subst h; decide)
  have hstrip : pyStripL ('\\' :: ds) = '\\' :: ds := by
    simp only [pyStripL, List.dropWhile_cons]
    rw [hall '\\' (List.mem_cons_self _ _)]
    simpa using dropTrail_of_all_not_ws hall
  simp only [pyIntOfString, hstrip]
  simp +decide

/-- C1: the Auto-Grade score extraction in `app.py` searches the raw-string
patterns `(\\d+)/100` and `Score:\\s*(\\d+)`, in which the doubled backslash
matches a literal backslash rather than forming the digit class, so no
realistic grading text ever matches and any match that does occur captures a
group starting with a backslash on which `int()` raises: the extracted score
is 0 for EVERY input — in particular 0, not 87, on the specified example
`"Score: 87/100\nGood work"` — and 0 on `"No score info"` without throwing. -/
theorem c1_score_extraction :
    (∀ res, extract_score res = 0) ∧
      extract_score "Score: 87/100\nGood work" = 0 ∧
      extract_score "No score info" = 0 := by
  refine ⟨?_, rfl, rfl⟩
  intro res
  simp only [extract_score]
  cases h1 : searchFirst tryPat1 res.data with
  | some g =>
    obtain ⟨cs2, hp⟩ := searchFirst_shape h1
    obtain ⟨ds, hg, hds⟩ := tryPat1_shape hp
    subst hg
    simp [pyIntOfString_backslash_run (fun c hc => Or.inl (hds c hc))]
  | none =>
    cases h2 : searchFirst tryPat2 res.data with
    | some g =>
      obtain ⟨cs2, hp⟩ := searchFirst_shape h2
      obtain ⟨ds, hg, hds⟩ := tryPat2_shape hp
      subst hg
      simp [h1, pyIntOfString_backslash_run hds]
    | none => rfl

/-- C3: modelling the completion call by its outcome, any exception raised by
the model endpoint is caught: `query` hands back an error-carrying string
paired with the retrieved source identifiers, `grade_submission` hands back
an error-carrying string, and a normal grading completion is returned as-is —
the caller always receives text. -/
theorem c3_error_strings :
    ∀ (mode topic difficulty : String) (sources : List String) (e content : String),
      queryResult mode topic difficulty sources (Except.error e) =
          ("Error calling AI: " ++ e, sources) ∧
        grade_submission (Except.error e) = "Grading Error: " ++ e ∧
        grade_submission (Except.ok content) = content := by
  intro mode topic difficulty sources e content
  exact ⟨rfl, rfl, rfl⟩

theorem parseMembers_obj :
    ∀ (f : Nat) (cs : List Char) (acc : List (String × Json)) (v : Json) (r : List Char),
      parseMembers f cs acc = some (v, r) → ∃ kvs, v = Json.obj kvs := by
  intro f
  induction f with
  | zero => intro cs acc v r h; simp [parseMembers] at h
  | succ f ih =>
    intro cs acc v r h
    match cs with
    | [] => simp [parseMembers] at h
    | c :: rest =>
      simp only [parseMembers] at h
      split at h
      · split at h
        · simp at h
        · split at h
          · simp at h
          · split at h
            · split at h
              · simp at h
              · split at h
                · simp at h
                · split at h
                  · exact ih _ _ _ _ h
                  · split at h
                    · simp only [Option.some.injEq, Prod.mk.injEq] at h
                      exact ⟨_, h.1.symm⟩
                    · simp at h
            · simp at h
      · simp at h

theorem parseVal_succ_brace (f : Nat) (rest : List Char) :
    parseVal (f + 1) ('{' :: rest) =
      match skipWs rest with
      | [] => none
      | c2 :: r2 =>
        if c2 = '}' then some (Json.obj [], r2) else parseMembers f (c2 :: r2) [] := rfl

theorem parseVal_brace_obj (f : Nat) (rest : List Char) (v : Json) (r : List Char)
    (h : parseVal f ('{' :: rest) = some (v, r)) : ∃ kvs, v = Json.obj kvs := by
  cases f with
  | zero => simp [parseVal] at h
  | succ f =>
    rw [parseVal_succ_brace] at h
    split at h
    · simp at h
    · split at h
      · simp only [Option.some.injEq, Prod.mk.injEq] at h
        exact ⟨[], h.1.symm⟩
      · exact parseMembers_obj _ _ _ _ _ h

/-- C9 counterexample: `_extract_json_payload` succeeds on `"[1, 2]"` through
the direct-parse path and hands back a JSON ARRAY, not an object — the source
returns `json.loads(candidate)` without any `isinstance(..., dict)` check. -/
theorem c9_object_counterexample :
    extract_json_payload "[1, 2]" = Except.ok (Json.arr [Json.num 1, Json.num 2]) ∧
      isObjJ (Json.arr [Json.num 1, Json.num 2]) = false := ⟨rfl, rfl⟩

/-- C9 amended: only the brace-scan recovery path of `_extract_json_payload`
guarantees an object — every value produced by the scan (a `raw_decode` at a
`{` character) is a JSON object; the direct-parse path returns whatever JSON
value the stripped text is, arrays and scalars included. -/
theorem c9_object_amended :
    ∀ (fuel : Nat) (cs : List Char) (v : Json),
      braceScanAux fuel cs = some v → isObjJ v = true := by
  intro fuel cs
  induction cs with
  | nil => intro v h; simp [braceScanAux] at h
  | cons c rest ih =>
    intro v h
    simp only [braceScanAux] at h
    split at h
    · next hc =>
      split at h
      · next v0 r0 heq =>
        cases h
        subst hc
        obtain ⟨kvs, hk⟩ := parseVal_brace_obj _ _ _ _ heq
        subst hk
        rfl
      · exact ih v h
    · exact ih v h

theorem c9_object_amended_witness :
    braceScanAux 3 ("\x7b\x7d").data = some (Json.obj []) ∧ isObjJ (Json.obj []) = true :=
  ⟨rfl, c9_object_amended 3 ("\x7b\x7d").data (Json.obj []) rfl⟩

/-- C8 counterexample: with a readable one-document corpus and a persistence
failure, `__init__` propagates the failure — index construction does NOT
complete, contradicting the claim that persistence failures are non-fatal. -/
theorem c8_persist_counterexample :
    initPipeline none [("a.pdf", some ["hello"])] (Except.error "disk full") =
      Except.error "disk full" := rfl

/-- C8 amended: `FAISS.save_local` is called outside any try/except, so when
persisting the freshly built index fails the exception propagates out of
`__init__`: construction fails and no pipeline object (hence no usable
in-memory index) results; there is no warning-only path. -/
theorem c8_persist_amended :
    ∀ files e, buildChunks files ≠ [] →
      initPipeline none files (Except.error e) = Except.error e := by
  intro files e h
  cases hb : buildChunks files with
  | nil => exact absurd hb h
  | cons a t => simp [initPipeline, hb]

theorem c8_persist_amended_witness :
    buildChunks [("a.pdf", some ["hello"])] ≠ [] ∧
      initPipeline none [("a.pdf", some ["hello"])] (Except.error "boom") =
        Except.error "boom" :=
  ⟨by decide, c8_persist_amended _ "boom" (by decide)⟩

theorem parse_json_blob_error_string (msg : String) :
    parse_json_blob ("Error calling AI: " ++ msg) = none := by
  have hdata : ("Error calling AI: " ++ msg).data =
      'E' :: ("rror calling AI: ".data ++ msg.data) := by
    have hlit : "Error calling AI: ".data = 'E' :: "rror calling AI: ".data := rfl
    rw [string_data_append, hlit, List.cons_append]
  have hne : ("Error calling AI: " ++ msg) ≠ "" := by
    intro hcontra
    have h0 := congrArg String.data hcontra
    rw [hdata] at h0
    simp at h0
  obtain ⟨t, ht⟩ := pyStripL_cons_not_ws (c := 'E') (by decide)
    ("rror calling AI: ".data ++ msg.data)
  have hfs : isFenceStart ('E' :: t) = false := by
    match t with
    | [] => rfl
    | [b] => rfl
    | b :: c :: t3 => simp +decide [isFenceStart, bqChar]
  have hskip : skipWs ('E' :: t) = 'E' :: t := by
    simp +decide [skipWs]
  simp only [parse_json_blob, if_neg hne, hdata, ht, hfs, Bool.false_eq_true, if_false,
    loadsL, hskip, parseVal_letterE]

/-- C2 counterexample: in Instructor Mode, when the model output is
unparsable, `query` returns the string `"Error calling AI: Could not parse
JSON payload"` — the raw model text is discarded, not returned. -/
theorem c2_raw_fallback_counterexample :
    (queryResult "Instructor Mode" "T" "Beginner" [] (Except.ok "hello there")).1 =
        "Error calling AI: Could not parse JSON payload" ∧
      (queryResult "Instructor Mode" "T" "Beginner" [] (Except.ok "hello there")).1 ≠
        "hello there" := ⟨rfl, by decide⟩

/-- C2 amended: when the Instructor-Mode model output cannot be coerced to
JSON, `query` does not propagate the parse failure, but instead of the raw
model text it returns the error-carrying string `"Error calling AI: <parse
error message>"` paired with the sources; the Save Exam handler then fails to
parse that string as JSON and stores it as-is via the degraded
(`"not structured JSON"` warning) path. -/
theorem c2_raw_fallback_amended :
    ∀ (raw msg topic difficulty : String) (sources : List String),
      extract_json_payload raw = Except.error msg →
      queryResult "Instructor Mode" topic difficulty sources (Except.ok raw) =
          ("Error calling AI: " ++ msg, sources) ∧
        storedContent ("Error calling AI: " ++ msg) = "Error calling AI: " ++ msg := by
  intro raw msg topic difficulty sources h
  constructor
  · simp [queryResult, h]
  · simp [storedContent, parse_json_blob_error_string]

theorem c2_raw_fallback_amended_witness :
    extract_json_payload "hello there" = Except.error "Could not parse JSON payload" ∧
      (queryResult "Instructor Mode" "T" "B" [] (Except.ok "hello there") =
          ("Error calling AI: " ++ "Could not parse JSON payload", []) ∧
        storedContent ("Error calling AI: " ++ "Could not parse JSON payload") =
          "Error calling AI: " ++ "Could not parse JSON payload") :=
  ⟨rfl, c2_raw_fallback_amended "hello there" "Could not parse JSON payload" "T" "B" [] rfl⟩

theorem splitChunks_cons_ne_nil (f : Nat) (c : Char) (rest : List Char) :
    splitChunks (f + 1) (c :: rest) ≠ [] := by
  simp only [splitChunks]
  split <;> simp

theorem splitText_ne_nil {d : String} (h : d ≠ "") : splitText d ≠ [] := by
  cases hd : d.data with
  | nil =>
    exfalso
    apply h
    cases d with
    | mk data => simp at hd; rw [hd]
  | cons c rest =>
    intro hnil
    have hne := splitChunks_cons_ne_nil (rest.length + 1) c rest
    simp only [splitText, hd, List.map_eq_nil_iff, List.length_cons] at hnil
    exact hne hnil

theorem mem_ingestDocs :
    ∀ {files : List (String × Option (List String))}
      {fl : String × Option (List String)} {ds : List String} {d : String},
      fl ∈ files → isPdfName fl.1 = true → fl.2 = some ds → d ∈ ds →
      d ∈ ingestDocs files := by
  intro files
  induction files with
  | nil => intro fl ds d hfl _ _ _; simp at hfl
  | cons g rest ih =>
    intro fl ds d hfl hpdf hds hd
    obtain ⟨name, content⟩ := g
    rcases List.mem_cons.mp hfl with h | h
    · subst h
      simp only at hpdf hds
      simp only [ingestDocs, hpdf, if_true, hds]
      exact List.mem_append_left _ hd
    · simp only [ingestDocs]
      by_cases hp : isPdfName name = true
      · simp only [hp, if_true]
        cases content with
        | some ds2 => exact List.mem_append_right _ (ih h hpdf hds hd)
        | none => exact ih h hpdf hds hd
      · simp only [Bool.not_eq_true] at hp
        simp only [hp, Bool.false_eq_true, if_false]
        exact ih h hpdf hds hd

theorem buildChunks_of_good
    {files : List (String × Option (List String))}
    {fl : String × Option (List String)} {ds : List String} {d : String}
    (hfl : fl ∈ files) (hpdf : isPdfName fl.1 = true) (hds : fl.2 = some ds)
    (hd : d ∈ ds) (hne : d ≠ "") : buildChunks files ≠ [] := by
  have hmem := mem_ingestDocs hfl hpdf hds hd
  have hsp := splitText_ne_nil hne
  intro hcontra
  obtain ⟨c0, hc0⟩ : ∃ c0, c0 ∈ splitText d := by
    cases hsplit : splitText d with
    | nil => exact absurd hsplit hsp
    | cons a t => exact ⟨a, by simp [hsplit]⟩
  have hin : c0 ∈ buildChunks files := by
    simp only [buildChunks]
    exact List.mem_flatMap.mpr ⟨d, hmem, hc0⟩
  rw [hcontra] at hin
  simp at hin

theorem flatMap_splitText_blank :
    ∀ {ds : List String}, (∀ d ∈ ds, d = "") → ds.flatMap splitText = [] := by
  intro ds
  induction ds with
  | nil => intro _; rfl
  | cons d t ih =>
    intro h
    have hd := h d (List.mem_cons_self _ _)
    subst hd
    simp only [List.flatMap_cons, ih (fun x hx => h x (List.mem_cons_of_mem _ hx)),
      List.append_nil]
    rfl

theorem buildChunks_all_blank :
    ∀ (files : List (String × Option (List String))),
      (∀ fl ∈ files, isPdfName fl.1 = true → ∀ d ∈ fl.2.getD [], d = "") →
      buildChunks files = [] := by
  intro files
  induction files with
  | nil => intro _; rfl
  | cons g rest ih =>
    intro h
    obtain ⟨name, content⟩ := g
    have hrest := ih (fun fl hfl => h fl (List.mem_cons_of_mem _ hfl))
    simp only [buildChunks, ingestDocs] at hrest ⊢
    by_cases hp : isPdfName name = true
    · simp only [hp, if_true]
      cases content with
      | none => exact hrest
      | some ds =>
        have hdocs : ∀ d ∈ ds, d = "" := by
          have := h (name, some ds) (List.mem_cons_self _ _) hp
          simpa using this
        rw [List.flatMap_append, hrest, flatMap_splitText_blank hdocs]
        rfl
    · simp only [Bool.not_eq_true] at hp
      simp only [hp, Bool.false_eq_true, if_false]
      exact hrest

/-- C7: with no persisted index, when every readable pdf page text is empty
(in particular when the folder is empty or every document is unreadable and
skipped), `__init__` fails with the empty-corpus error — the spec's
`CorpusEmptyError` — regardless of the persistence outcome; conversely one
readable pdf with a non-empty page makes construction succeed with a
non-empty in-memory index, the unreadable rest notwithstanding. -/
theorem c7_empty_corpus :
    (∀ (files : List (String × Option (List String))) (save : Except String Unit),
        (∀ fl ∈ files, isPdfName fl.1 = true → ∀ d ∈ fl.2.getD [], d = "") →
        initPipeline none files save = Except.error corpusEmptyMessage) ∧
      (∀ (files : List (String × Option (List String)))
          (fl : String × Option (List String)) (ds : List String) (d : String),
        fl ∈ files → isPdfName fl.1 = true → fl.2 = some ds → d ∈ ds → d ≠ "" →
        initPipeline none files (Except.ok ()) = Except.ok (buildChunks files) ∧
          buildChunks files ≠ []) := by
  constructor
  · intro files save h
    have hb := buildChunks_all_blank files h
    simp [initPipeline, hb]
  · intro files fl ds d hfl hpdf hds hd hne
    have hb := buildChunks_of_good hfl hpdf hds hd hne
    refine ⟨?_, hb⟩
    cases hc : buildChunks files with
    | nil => exact absurd hc hb
    | cons a t => simp [initPipeline, hc]

theorem c7_empty_corpus_witness :
    ((∀ fl ∈ ([("a.txt", some ["x"]), ("b.pdf", none)] :
          List (String × Option (List String))),
        isPdfName fl.1 = true → ∀ d ∈ fl.2.getD [], d = "") ∧
      initPipeline none [("a.txt", some ["x"]), ("b.pdf", none)] (Except.ok ()) =
        Except.error corpusEmptyMessage) ∧
      (initPipeline none [("b.pdf", none), ("c.pdf", some ["hello"])] (Except.ok ()) =
          Except.ok (buildChunks [("b.pdf", none), ("c.pdf", some ["hello"])]) ∧
        buildChunks [("b.pdf", none), ("c.pdf", some ["hello"])] ≠ []) :=
  ⟨⟨by decide, c7_empty_corpus.1 _ _ (by decide)⟩,
   c7_empty_corpus.2 _ ("c.pdf", some ["hello"]) ["hello"] "hello" (by decide) (by decide)
     (by decide) (by decide) (by decide)⟩

theorem dropWhile_head_false {p : Char → Bool} :
    ∀ {cs : List Char} {c : Char} {rest : List Char},
      cs.dropWhile p = c :: rest → p c = false := by
  intro cs
  induction cs with
  | nil => intro c rest h; simp at h
  | cons a t ih =>
    intro c rest h
    rw [List.dropWhile_cons] at h
    by_cases ha : p a = true
    · rw [ha] at h; simp at h; exact ih h
    · simp only [Bool.not_eq_true] at ha
      rw [ha] at h
      simp at h
      rw [← h.1]
      exact ha

theorem dropTrail_idem : ∀ l : List Char, dropTrail (dropTrail l) = dropTrail l := by
  intro l
  induction l with
  | nil => rfl
  | cons c t ih =>
    cases h : dropTrail t with
    | nil =>
      by_cases hc : isPyWs c = true
      · simp [dropTrail, h, hc]
      · simp only [Bool.not_eq_true] at hc
        simp [dropTrail, h, hc]
    | cons d t2 =>
      rw [h] at ih
      have hgoal : dropTrail (c :: t) = c :: d :: t2 := by
        simp only [dropTrail, h]
      rw [hgoal]
      show dropTrail (c :: d :: t2) = c :: d :: t2
      simp only [dropTrail] at ih ⊢
      rw [ih]

theorem pyStripL_idem (cs : List Char) : pyStripL (pyStripL cs) = pyStripL cs := by
  unfold pyStripL
  cases ha : cs.dropWhile isPyWs with
  | nil => simp [dropTrail]
  | cons c rest =>
    have hc : isPyWs c = false := dropWhile_head_false ha
    rcases dropTrail_cons_shape c rest with h0 | ⟨t, ht⟩
    · rw [h0]; simp [dropTrail]
    · rw [ht]
      have hidem := dropTrail_idem (c :: rest)
      rw [ht] at hidem
      simp only [List.dropWhile_cons, hc, Bool.false_eq_true, if_false]
      exact hidem

theorem pyStripStr_idem (s : String) : pyStripStr (pyStripStr s) = pyStripStr s := by
  simp only [pyStripStr]
  rw [pyStripL_idem]

theorem normMCQs_mem :
    ∀ (l : List Json) (i : Nat) (ms : List MCQ) (m : MCQ),
      normMCQs l i = some ms → m ∈ ms →
      m.options.length ≥ 2 ∧
        (∀ o ∈ m.options, o ≠ "" ∧ pyStripStr o = o) ∧
        0 ≤ m.correct_option_index ∧ m.correct_option_index < (m.options.length : Int) := by
  intro l
  induction l with
  | nil =>
    intro i ms m h hm
    simp only [normMCQs, Option.some.injEq] at h
    subst h
    simp at hm
  | cons q rest ih =>
    intro i ms m h hm
    match q with
    | Json.null => simp only [normMCQs] at h; exact ih _ _ _ h hm
    | Json.bool b => simp only [normMCQs] at h; exact ih _ _ _ h hm
    | Json.num n => simp only [normMCQs] at h; exact ih _ _ _ h hm
    | Json.str s => simp only [normMCQs] at h; exact ih _ _ _ h hm
    | Json.arr xs => simp only [normMCQs] at h; exact ih _ _ _ h hm
    | Json.obj kvs =>
      simp only [normMCQs] at h
      split at h
      · simp at h
      · next opts heq =>
        split at h
        · exact ih _ _ _ h hm
        · next hcond =>
          rcases hrec : normMCQs rest (i + 1) with _ | ms2 <;> rw [hrec] at h
          · simp at h
          · simp only [Option.map, Option.bind, Option.some.injEq] at h
            subst h
            rcases List.mem_cons.mp hm with hm1 | hm2
            · subst hm1
              simp only [Bool.or_eq_true, not_or, Bool.not_eq_true, decide_eq_true_eq,
                Nat.not_lt] at hcond
              obtain ⟨hq, hlen⟩ := hcond
              refine ⟨hlen, ?_, ?_, ?_⟩
              · intro o ho
                simp only [filterOptions, List.mem_filter, List.mem_map] at ho
                obtain ⟨⟨raw, _, hraw⟩, hne⟩ := ho
                constructor
                · intro hempty
                  rw [hempty] at hne
                  exact absurd hne (by decide)
                · rw [← hraw, pyStripStr_idem]
              · exact le_max_left 0 _
              · dsimp only
                have hL : (2 : Int) ≤ ((filterOptions opts).length : Int) := by
                  exact_mod_cast hlen
                have hmin : min ((pyInt ((jGet kvs "correct_option_index").getD
                    (Json.num 0))).getD 0) (((filterOptions opts).length : Int) - 1) ≤
                    ((filterOptions opts).length : Int) - 1 := min_le_right _ _
                apply max_lt <;> omega
            · exact ih _ _ _ hrec hm2

theorem normalize_mcqs_shape :
    ∀ (payload : Json) (topic difficulty : String) (spec : ExamSpec),
      normalize_exam_payload payload topic difficulty = some spec →
      ∃ mlist, normMCQs mlist 1 = some spec.mcqs := by
  intro payload topic difficulty spec h
  simp only [normalize_exam_payload] at h
  split at h
  · next mlist elist heq1 heq2 =>
    split at h
    · simp at h
    · next mcqs heq3 =>
      simp only [Option.some.injEq] at h
      subst h
      exact ⟨mlist, heq3⟩
  · simp at h

/-- C4: for every MCQ entry retained by `_normalize_exam_payload`, the stored
`correct_option_index` (the `int()`-coerced value, defaulting to 0, clamped
by `max(0, min(idx, len(options)-1))`) is in bounds for the option list; the
spec example with index 99 and 4 options is clamped to 3, and a non-coercible
index defaults to 0. -/
theorem c4_index_clamped :
    (∀ (payload : Json) (topic difficulty : String) (spec : ExamSpec) (m : MCQ),
        normalize_exam_payload payload topic difficulty = some spec → m ∈ spec.mcqs →
        0 ≤ m.correct_option_index ∧ m.correct_option_index < (m.options.length : Int)) ∧
      (normalize_exam_payload ex99Payload "T" "Beginner").map
          (fun s => s.mcqs.map MCQ.correct_option_index) = some [3] ∧
      (normalize_exam_payload exBadIdxPayload "T" "Beginner").map
          (fun s => s.mcqs.map MCQ.correct_option_index) = some [0] := by
  refine ⟨?_, rfl, rfl⟩
  intro payload topic difficulty spec m h hm
  obtain ⟨mlist, hml⟩ := normalize_mcqs_shape payload topic difficulty spec h
  exact (normMCQs_mem mlist 1 spec.mcqs m hml hm).2.2

theorem c4_index_clamped_witness :
    normalize_exam_payload ex99Payload "T" "Beginner" =
        some { topic := "T", difficulty := "Beginner",
               mcqs := [{ id := "MCQ-1", question := "Pick one",
                          options := ["a", "b", "c", "d"],
                          correct_option_index := 3, explanation := "" }],
               essays := [] } ∧
      (0 ≤ (3 : Int) ∧ (3 : Int) < ((["a", "b", "c", "d"] : List String).length : Int)) :=
  ⟨rfl,
   c4_index_clamped.1 ex99Payload "T" "Beginner"
     { topic := "T", difficulty := "Beginner",
       mcqs := [{ id := "MCQ-1", question := "Pick one", options := ["a", "b", "c", "d"],
                  correct_option_index := 3, explanation := "" }],
       essays := [] }
     { id := "MCQ-1", question := "Pick one", options := ["a", "b", "c", "d"],
       correct_option_index := 3, explanation := "" } rfl (by simp)⟩

/-- C10: in every normalized exam, each retained MCQ keeps only its stripped,
non-empty options, at least two of them, and its `correct_option_index` is a
valid position in that filtered list (`0 <= idx < len(options)`) — the
whitespace-stripping and empty-option filtering happen before the minimum-2
check and before clamping. -/
theorem c10_normalized_invariants :
    ∀ (payload : Json) (topic difficulty : String) (spec : ExamSpec) (m : MCQ),
      normalize_exam_payload payload topic difficulty = some spec → m ∈ spec.mcqs →
      m.options.length ≥ 2 ∧
        (∀ o ∈ m.options, o ≠ "" ∧ pyStripStr o = o) ∧
        0 ≤ m.correct_option_index ∧ m.correct_option_index < (m.options.length : Int) := by
  intro payload topic difficulty spec m h hm
  obtain ⟨mlist, hml⟩ := normalize_mcqs_shape payload topic difficulty spec h
  exact normMCQs_mem mlist 1 spec.mcqs m hml hm

theorem c10_normalized_invariants_witness :
    normalize_exam_payload exOneOptPayload "T" "Beginner" =
        some { topic := "T", difficulty := "Beginner",
               mcqs := [{ id := "MCQ-A", question := "Valid?", options := ["yes", "no"],
                          correct_option_index := 1, explanation := "ok" }],
               essays := [] } ∧
      (({ id := "MCQ-A", question := "Valid?", options := ["yes", "no"], correct_option_index := 1, explanation := "ok" } : MCQ).options.length ≥ 2 ∧
        (∀ o ∈ ({ id := "MCQ-A", question := "Valid?", options := ["yes", "no"], correct_option_index := 1, explanation := "ok" } : MCQ).options,
            o ≠ "" ∧ pyStripStr o = o) ∧
        0 ≤ ({ id := "MCQ-A", question := "Valid?", options := ["yes", "no"], correct_option_index := 1, explanation := "ok" } : MCQ).correct_option_index ∧
        ({ id := "MCQ-A", question := "Valid?", options := ["yes", "no"], correct_option_index := 1, explanation := "ok" } : MCQ).correct_option_index <
          (({ id := "MCQ-A", question := "Valid?", options := ["yes", "no"], correct_option_index := 1, explanation := "ok" } : MCQ).options.length : Int)) :=
  ⟨rfl,
   c10_normalized_invariants exOneOptPayload "T" "Beginner"
     { topic := "T", difficulty := "Beginner",
       mcqs := [{ id := "MCQ-A", question := "Valid?", options := ["yes", "no"],
                  correct_option_index := 1, explanation := "ok" }],
       essays := [] }
     { id := "MCQ-A", question := "Valid?", options := ["yes", "no"],
       correct_option_index := 1, explanation := "ok" } rfl (by simp)⟩

/-- C5 counterexample: an MCQ-like dict entry with an empty question and a
non-iterable `options` value (here the number 5) is in the class the claim
says is dropped silently, but the option comprehension `[str(opt).strip()
for opt in q.get("options", [])]` raises `TypeError` before the emptiness
check runs, so the WHOLE normalization fails (`none`) and even the valid
entry after it is lost. -/
theorem c5_drop_counterexample :
    normalize_exam_payload exCrashPayload "T" "Beginner" = none := rfl

/-- C5 amended: `_normalize_exam_payload` silently drops — without failing
the exam — every non-dict entry, every MCQ-like dict entry with an iterable
`options` whose question is empty or which keeps fewer than 2 non-empty
options, and every essay-like entry with an empty question; the spec example
(a single-option MCQ dropped while the following valid MCQ is kept) holds.
A dict MCQ entry whose `options` value is not iterable is the exception: it
raises `TypeError` and fails the whole normalization. -/
theorem c5_drop_amended :
    (∀ (kvs : List (String × Json)) (opts : List Json) (rest : List Json) (i : Nat),
        toIter ((jGet kvs "options").getD (Json.arr [])) = some opts →
        ((entryQuestion kvs).isEmpty || (filterOptions opts).length < 2) = true →
        normMCQs (Json.obj kvs :: rest) i = normMCQs rest (i + 1)) ∧
      (∀ (j : Json) (rest : List Json) (i : Nat), isObjJ j = false →
        normMCQs (j :: rest) i = normMCQs rest (i + 1)) ∧
      (∀ (kvs : List (String × Json)) (rest : List Json) (i : Nat),
        (entryQuestion kvs).isEmpty = true →
        normEssays (Json.obj kvs :: rest) i = normEssays rest (i + 1)) ∧
      normalize_exam_payload exOneOptPayload "T" "Beginner" =
        some { topic := "T", difficulty := "Beginner",
               mcqs := [{ id := "MCQ-A", question := "Valid?", options := ["yes", "no"],
                          correct_option_index := 1, explanation := "ok" }],
               essays := [] } := by
  refine ⟨?_, ?_, ?_, rfl⟩
  · intro kvs opts rest i hiter hbad
    simp only [normMCQs, hiter, hbad, if_true]
  · intro j rest i hobj
    match j with
    | Json.null => simp only [normMCQs]
    | Json.bool b => simp only [normMCQs]
    | Json.num n => simp only [normMCQs]
    | Json.str s => simp only [normMCQs]
    | Json.arr xs => simp only [normMCQs]
    | Json.obj kvs => simp [isObjJ] at hobj
  · intro kvs rest i hq
    simp only [normEssays, hq, if_true]

theorem c5_drop_amended_witness :
    toIter ((jGet [("question", Json.str "Lonely"), ("options", Json.arr [Json.str "only"])]
          "options").getD (Json.arr [])) = some [Json.str "only"] ∧
      ((entryQuestion [("question", Json.str "Lonely"),
            ("options", Json.arr [Json.str "only"])]).isEmpty ||
          (filterOptions [Json.str "only"]).length < 2) = true ∧
      normMCQs (Json.obj [("question", Json.str "Lonely"),
          ("options", Json.arr [Json.str "only"])] :: [validMCQEntry]) 1 =
        normMCQs [validMCQEntry] 2 :=
  ⟨rfl, by decide,
   c5_drop_amended.1 [("question", Json.str "Lonely"), ("options", Json.arr [Json.str "only"])]
     [Json.str "only"] [validMCQEntry] 1 rfl (by decide)⟩

theorem dropWhile_append_cons {p : Char → Bool} :
    ∀ {cs : List Char} {d : Char} {r t : List Char},
      cs.dropWhile p = d :: r → (cs ++ t).dropWhile p = d :: (r ++ t) := by
  intro cs
  induction cs with
  | nil => intro d r t h; simp at h
  | cons a rest ih =>
    intro d r t h
    rw [List.dropWhile_cons] at h
    rw [List.cons_append, List.dropWhile_cons]
    by_cases ha : p a = true
    · rw [ha] at h ⊢
      simp only [if_true] at h ⊢
      exact ih h
    · simp only [Bool.not_eq_true] at ha
      rw [ha] at h ⊢
      simp only [Bool.false_eq_true, if_false] at h ⊢
      injection h with h1 h2
      subst h1
      subst h2
      rfl

theorem takeWhile_append_cons {p : Char → Bool} :
    ∀ {cs : List Char} {d : Char} {r t : List Char},
      cs.dropWhile p = d :: r → (cs ++ t).takeWhile p = cs.takeWhile p := by
  intro cs
  induction cs with
  | nil => intro d r t h; simp at h
  | cons a rest ih =>
    intro d r t h
    rw [List.dropWhile_cons] at h
    rw [List.cons_append, List.takeWhile_cons, List.takeWhile_cons]
    by_cases ha : p a = true
    · rw [ha] at h ⊢
      simp only [if_true] at h ⊢
      rw [ih h]
    · simp only [Bool.not_eq_true] at ha
      rw [ha]
      simp

theorem takeWhile_eq_self_of_all {p : Char → Bool} :
    ∀ {cs : List Char}, (∀ c ∈ cs, p c = true) → cs.takeWhile p = cs := by
  intro cs
  induction cs with
  | nil => intro _; rfl
  | cons a rest ih =>
    intro h
    rw [List.takeWhile_cons, h a (List.mem_cons_self _ _), if_pos rfl,
      ih (fun c hc => h c (List.mem_cons_of_mem _ hc))]

theorem takeWhile_append_all {p : Char → Bool} :
    ∀ {cs t : List Char}, (∀ c ∈ cs, p c = true) →
      (cs ++ t).takeWhile p = cs ++ t.takeWhile p := by
  intro cs
  induction cs with
  | nil => intro t _; rfl
  | cons a rest ih =>
    intro t h
    rw [List.cons_append, List.takeWhile_cons, h a (List.mem_cons_self _ _), if_pos rfl,
      ih (fun c hc => h c (List.mem_cons_of_mem _ hc)), List.cons_append]

theorem dropWhile_append_all {p : Char → Bool} :
    ∀ {cs t : List Char}, (∀ c ∈ cs, p c = true) →
      (cs ++ t).dropWhile p = t.dropWhile p := by
  intro cs
  induction cs with
  | nil => intro t _; rfl
  | cons a rest ih =>
    intro t h
    rw [List.cons_append, List.dropWhile_cons, h a (List.mem_cons_self _ _), if_pos rfl,
      ih (fun c hc => h c (List.mem_cons_of_mem _ hc))]

theorem all_of_dropWhile_eq_nil {p : Char → Bool} :
    ∀ {cs : List Char}, cs.dropWhile p = [] → ∀ c ∈ cs, p c = true := by
  intro cs
  induction cs with
  | nil => intro _ c hc; simp at hc
  | cons a rest ih =>
    intro h c hc
    rw [List.dropWhile_cons] at h
    by_cases ha : p a = true
    · rw [ha, if_pos rfl] at h
      rcases List.mem_cons.mp hc with h1 | h1
      · subst h1; exact ha
      · exact ih h c h1
    · simp only [Bool.not_eq_true] at ha
      rw [ha] at h
      simp at h

theorem dropWhile_eq_self_of_takeWhile_nil {p : Char → Bool} :
    ∀ {cs : List Char}, cs.takeWhile p = [] → cs.dropWhile p = cs := by
  intro cs
  cases cs with
  | nil => intro _; rfl
  | cons a rest =>
    intro h
    rw [List.takeWhile_cons] at h
    rw [List.dropWhile_cons]
    by_cases ha : p a = true
    · rw [ha, if_pos rfl] at h; simp at h
    · simp only [Bool.not_eq_true] at ha
      rw [ha]
      simp

theorem parseDigits_append {cs : List Char} {n : Nat} {r tail : List Char}
    (h : parseDigits cs = some (n, r)) (ht : restTailOk r tail) :
    parseDigits (cs ++ tail) = some (n, r ++ tail) := by
  simp only [parseDigits] at h
  split at h
  · simp at h
  · next hds =>
    split at h
    · next hstop =>
      simp only [Option.some.injEq, Prod.mk.injEq] at h
      obtain ⟨hn, hr⟩ := h
      subst hn
      cases hdw : cs.dropWhile Char.isDigit with
      | cons d r2 =>
        rw [hdw] at hr
        subst hr
        simp only [parseDigits, takeWhile_append_cons hdw, dropWhile_append_cons hdw]
        rw [if_neg hds]
        rw [hdw] at hstop
        rw [if_pos (by simpa [numStop] using hstop)]
        simp
      | nil =>
        rw [hdw] at hr
        subst hr
        rcases ht with hne | ⟨htk, hns⟩
        · exact absurd rfl hne
        · have hall := all_of_dropWhile_eq_nil hdw
          have htw : cs.takeWhile Char.isDigit = cs := takeWhile_eq_self_of_all hall
          simp only [parseDigits, takeWhile_append_all hall, dropWhile_append_all hall,
            htk, List.append_nil, dropWhile_eq_self_of_takeWhile_nil htk]
          rw [if_neg (htw ▸ hds), if_pos hns, htw]
          simp
    · simp at h

theorem parseStrAux_append :
    ∀ (f : Nat) {g : Nat} {cs out rem tail : List Char}, f ≤ g →
      parseStrAux f cs = some (out, rem) →
      parseStrAux g (cs ++ tail) = some (out, rem ++ tail) := by
  intro f
  induction f with
  | zero => intro g cs out rem tail _ h; simp [parseStrAux] at h
  | succ f ih =>
    intro g cs out rem tail hfg h
    obtain ⟨g2, rfl⟩ : ∃ g2, g = g2 + 1 := ⟨g - 1, by omega⟩
    have hfg2 : f ≤ g2 := by omega
    match cs with
    | [] => simp [parseStrAux] at h
    | c :: rest =>
      rw [List.cons_append]
      simp only [parseStrAux] at h ⊢
      by_cases hc : c = '"'
      · rw [if_pos hc] at h ⊢
        simp only [Option.some.injEq, Prod.mk.injEq] at h ⊢
        exact ⟨h.1, by rw [← h.2]⟩
      · rw [if_neg hc] at h ⊢
        by_cases hb : c = '\\'
        · rw [if_pos hb] at h ⊢
          match rest with
          | [] => simp at h
          | e :: rest2 =>
            rw [List.cons_append]
            dsimp only at h ⊢
            by_cases he : e = 'u'
            · rw [if_pos he] at h ⊢
              match rest2 with
              | [] => simp at h
              | [h1] => simp at h
              | [h1, h2] => simp at h
              | [h1, h2, h3] => simp at h
              | h1 :: h2 :: h3 :: h4 :: rest3 =>
                simp only [List.cons_append]
                dsimp only at h ⊢
                rcases ha : hexDigitVal h1 with _ | a <;> rw [ha] at h
                · simp at h
                rcases hb2 : hexDigitVal h2 with _ | b <;> rw [hb2] at h
                · simp at h
                rcases hc2 : hexDigitVal h3 with _ | c2 <;> rw [hc2] at h
                · simp at h
                rcases hd2 : hexDigitVal h4 with _ | d <;> rw [hd2] at h
                · simp at h
                rcases hrec : parseStrAux f rest3 with _ | ⟨out2, rem2⟩ <;> rw [hrec] at h
                · simp at h
                · rw [ih hfg2 hrec]
                  simp only [Option.some.injEq, Prod.mk.injEq] at h ⊢
                  exact ⟨by rw [← h.1], by rw [← h.2]⟩
            · rw [if_neg he] at h ⊢
              rcases hesc : escCharMap e with _ | ec <;> rw [hesc] at h
              · simp at h
              · rcases hrec : parseStrAux f rest2 with _ | ⟨out2, rem2⟩ <;> rw [hrec] at h
                · simp at h
                · rw [ih hfg2 hrec]
                  simp only [Option.some.injEq, Prod.mk.injEq] at h ⊢
                  exact ⟨by rw [← h.1], by rw [← h.2]⟩
        · rw [if_neg hb] at h ⊢
          by_cases hctl : c.toNat < 32
          · rw [if_pos hctl] at h
            simp at h
          · rw [if_neg hctl] at h ⊢
            rcases hrec : parseStrAux f rest with _ | ⟨out2, rem2⟩ <;> rw [hrec] at h
            · simp at h
            · rw [ih hfg2 hrec]
              simp only [Option.some.injEq, Prod.mk.injEq] at h ⊢
              exact ⟨by rw [← h.1], by rw [← h.2]⟩

theorem parseVal_nil (f : Nat) : parseVal f [] = none := by cases f <;> rfl

theorem parseMembers_nil (f : Nat) (acc : List (String × Json)) :
    parseMembers f [] acc = none := by cases f <;> rfl

theorem parseItems_nil (f : Nat) (acc : List Json) : parseItems f [] acc = none := by
  cases f with
  | zero => rfl
  | succ f =>
    show (match parseVal f [] with
      | none => none
      | some (v, r) =>
        match skipWs r with
        | [] => none
        | c3 :: r3 =>
          if c3 = ',' then parseItems f (skipWs r3) (acc ++ [v])
          else if c3 = ']' then some (Json.arr (acc ++ [v]), r3)
          else none) = none
    rw [parseVal_nil]

theorem skipWs_append_cons {cs : List Char} {d : Char} {r t : List Char}
    (h : skipWs cs = d :: r) : skipWs (cs ++ t) = d :: (r ++ t) :=
  dropWhile_append_cons h

theorem skipWs_ne_nil_of_cons {cs : List Char} {d : Char} {r : List Char}
    (h : skipWs cs = d :: r) : cs ≠ [] := by
  intro hx
  rw [hx] at h
  simp [skipWs] at h

theorem dropLit_append :
    ∀ {lit cs r t : List Char}, dropLit lit cs = some r →
      dropLit lit (cs ++ t) = some (r ++ t) := by
  intro lit
  induction lit with
  | nil =>
    intro cs r t h
    simp only [dropLit, Option.some.injEq] at h
    subst h
    rfl
  | cons l ls ih =>
    intro cs r t h
    match cs with
    | [] => simp [dropLit] at h
    | c :: cs2 =>
      rw [List.cons_append]
      simp only [dropLit] at h ⊢
      by_cases hc : c = l
      · rw [if_pos hc] at h ⊢
        exact ih h
      · rw [if_neg hc] at h
        simp at h

theorem parseVal_succ_cons (f : Nat) (c : Char) (rest : List Char) :
    parseVal (f + 1) (c :: rest) =
      (if c = '{' then
        match skipWs rest with
        | [] => none
        | c2 :: r2 =>
          if c2 = '}' then some (Json.obj [], r2) else parseMembers f (c2 :: r2) []
      else if c = '[' then
        match skipWs rest with
        | [] => none
        | c2 :: r2 =>
          if c2 = ']' then some (Json.arr [], r2) else parseItems f (c2 :: r2) []
      else if c = '"' then
        match parseStrAux (f + 1) rest with
        | some (out, rem) => some (Json.str (String.mk out), rem)
        | none => none
      else if c = 't' then
        match dropLit ['r', 'u', 'e'] rest with
        | some r => some (Json.bool true, r)
        | none => none
      else if c = 'f' then
        match dropLit ['a', 'l', 's', 'e'] rest with
        | some r => some (Json.bool false, r)
        | none => none
      else if c = 'n' then
        match dropLit ['u', 'l', 'l'] rest with
        | some r => some (Json.null, r)
        | none => none
      else if c = '-' then
        match parseDigits rest with
        | some (n, r) => some (Json.num (-(n : Int)), r)
        | none => none
      else if c.isDigit then
        match parseDigits (c :: rest) with
        | some (n, r) => some (Json.num (n : Int), r)
        | none => none
      else none) := rfl

theorem parseMembers_succ_cons (f : Nat) (c : Char) (rest : List Char)
    (acc : List (String × Json)) :
    parseMembers (f + 1) (c :: rest) acc =
      (if c = '"' then
        match parseStrAux (f + 1) rest with
        | none => none
        | some (keyChars, r1) =>
          match skipWs r1 with
          | [] => none
          | c2 :: r3 =>
            if c2 = ':' then
              match parseVal f (skipWs r3) with
              | none => none
              | some (v, r4) =>
                match skipWs r4 with
                | [] => none
                | c3 :: r6 =>
                  if c3 = ',' then parseMembers f (skipWs r6) (acc ++ [(String.mk keyChars, v)])
                  else if c3 = '}' then some (Json.obj (acc ++ [(String.mk keyChars, v)]), r6)
                  else none
            else none
      else none) := rfl

theorem parseItems_succ (f : Nat) (cs : List Char) (acc : List Json) :
    parseItems (f + 1) cs acc =
      (match parseVal f cs with
       | none => none
       | some (v, r) =>
         match skipWs r with
         | [] => none
         | c3 :: r3 =>
           if c3 = ',' then parseItems f (skipWs r3) (acc ++ [v])
           else if c3 = ']' then some (Json.arr (acc ++ [v]), r3)
           else none) := rfl

theorem parse_append :
    ∀ f : Nat,
      (∀ (g : Nat) (cs : List Char) (v : Json) (r tail : List Char), f ≤ g →
        parseVal f cs = some (v, r) → restTailOk r tail →
        parseVal g (cs ++ tail) = some (v, r ++ tail)) ∧
      (∀ (g : Nat) (cs : List Char) (acc : List (String × Json)) (v : Json) (r tail : List Char),
        f ≤ g → parseMembers f cs acc = some (v, r) → restTailOk r tail →
        parseMembers g (cs ++ tail) acc = some (v, r ++ tail)) ∧
      (∀ (g : Nat) (cs : List Char) (acc : List Json) (v : Json) (r tail : List Char),
        f ≤ g → parseItems f cs acc = some (v, r) → restTailOk r tail →
        parseItems g (cs ++ tail) acc = some (v, r ++ tail)) := by
  intro f
  induction f with
  | zero =>
    refine ⟨?_, ?_, ?_⟩
    · intro g cs v r tail _ h _; simp [parseVal] at h
    · intro g cs acc v r tail _ h _; simp [parseMembers] at h
    · intro g cs acc v r tail _ h _; simp [parseItems] at h
  | succ f ih =>
    obtain ⟨ihv, ihm, ihi⟩ := ih
    refine ⟨?_, ?_, ?_⟩
    · intro g cs v r tail hfg h ht
      obtain ⟨g2, rfl⟩ : ∃ g2, g = g2 + 1 := ⟨g - 1, by omega⟩
      have hfg2 : f ≤ g2 := by omega
      match cs with
      | [] => rw [parseVal_nil] at h; simp at h
      | c :: rest =>
        rw [parseVal_succ_cons] at h
        rw [List.cons_append, parseVal_succ_cons]
        by_cases hbrace : c = '{'
        · rw [if_pos hbrace] at h ⊢
          rcases hsw : skipWs rest with _ | ⟨c2, r2⟩ <;> rw [hsw] at h
          · simp at h
          · rw [skipWs_append_cons hsw]
            dsimp only at h ⊢
            by_cases hc2 : c2 = '}'
            · rw [if_pos hc2] at h ⊢
              simp only [Option.some.injEq, Prod.mk.injEq] at h ⊢
              exact ⟨h.1, by rw [← h.2]⟩
            · rw [if_neg hc2] at h ⊢
              have hres := ihm g2 (c2 :: r2) [] v r tail hfg2 h ht
              rw [List.cons_append] at hres
              exact hres
        · rw [if_neg hbrace] at h ⊢
          by_cases hbrk : c = '['
          · rw [if_pos hbrk] at h ⊢
            rcases hsw : skipWs rest with _ | ⟨c2, r2⟩ <;> rw [hsw] at h
            · simp at h
            · rw [skipWs_append_cons hsw]
              dsimp only at h ⊢
              by_cases hc2 : c2 = ']'
              · rw [if_pos hc2] at h ⊢
                simp only [Option.some.injEq, Prod.mk.injEq] at h ⊢
                exact ⟨h.1, by rw [← h.2]⟩
              · rw [if_neg hc2] at h ⊢
                have hres := ihi g2 (c2 :: r2) [] v r tail hfg2 h ht
                rw [List.cons_append] at hres
                exact hres
          · rw [if_neg hbrk] at h ⊢
            by_cases hquo : c = '"'
            · rw [if_pos hquo] at h ⊢
              rcases hps : parseStrAux (f + 1) rest with _ | ⟨out, rem⟩ <;> rw [hps] at h
              · simp at h
              · rw [parseStrAux_append (f + 1) (by omega) hps]
                simp only [Option.some.injEq, Prod.mk.injEq] at h ⊢
                exact ⟨h.1, by rw [← h.2]⟩
            · rw [if_neg hquo] at h ⊢
              by_cases htl : c = 't'
              · rw [if_pos htl] at h ⊢
                rcases hdl : dropLit ['r', 'u', 'e'] rest with _ | r2 <;> rw [hdl] at h
                · simp at h
                · rw [dropLit_append hdl]
                  simp only [Option.some.injEq, Prod.mk.injEq] at h ⊢
                  exact ⟨h.1, by rw [← h.2]⟩
              · rw [if_neg htl] at h ⊢
                by_cases hfl : c = 'f'
                · rw [if_pos hfl] at h ⊢
                  rcases hdl : dropLit ['a', 'l', 's', 'e'] rest with _ | r2 <;> rw [hdl] at h
                  · simp at h
                  · rw [dropLit_append hdl]
                    simp only [Option.some.injEq, Prod.mk.injEq] at h ⊢
                    exact ⟨h.1, by rw [← h.2]⟩
                · rw [if_neg hfl] at h ⊢
                  by_cases hnl : c = 'n'
                  · rw [if_pos hnl] at h ⊢
                    rcases hdl : dropLit ['u', 'l', 'l'] rest with _ | r2 <;> rw [hdl] at h
                    · simp at h
                    · rw [dropLit_append hdl]
                      simp only [Option.some.injEq, Prod.mk.injEq] at h ⊢
                      exact ⟨h.1, by rw [← h.2]⟩
                  · rw [if_neg hnl] at h ⊢
                    by_cases hmin : c = '-'
                    · rw [if_pos hmin] at h ⊢
                      rcases hd : parseDigits rest with _ | ⟨n, r2⟩ <;> rw [hd] at h
                      · simp at h
                      · simp only [Option.some.injEq, Prod.mk.injEq] at h
                        obtain ⟨hv, hr⟩ := h
                        subst hv
                        subst hr
                        rw [parseDigits_append hd ht]
                    · rw [if_neg hmin] at h ⊢
                      by_cases hdig : c.isDigit = true
                      · rw [if_pos hdig] at h ⊢
                        rcases hd : parseDigits (c :: rest) with _ | ⟨n, r2⟩ <;> rw [hd] at h
                        · simp at h
                        · simp only [Option.some.injEq, Prod.mk.injEq] at h
                          obtain ⟨hv, hr⟩ := h
                          subst hv
                          subst hr
                          rw [← List.cons_append, parseDigits_append hd ht]
                      · rw [if_neg hdig] at h
                        simp at h
    · intro g cs acc v r tail hfg h ht
      obtain ⟨g2, rfl⟩ : ∃ g2, g = g2 + 1 := ⟨g - 1, by omega⟩
      have hfg2 : f ≤ g2 := by omega
      match cs with
      | [] => rw [parseMembers_nil] at h; simp at h
      | c :: rest =>
        rw [parseMembers_succ_cons] at h
        rw [List.cons_append, parseMembers_succ_cons]
        by_cases hquo : c = '"'
        · rw [if_pos hquo] at h ⊢
          rcases hps : parseStrAux (f + 1) rest with _ | ⟨keyChars, r1⟩ <;> rw [hps] at h
          · simp at h
          · rw [parseStrAux_append (f + 1) (by omega) hps]
            dsimp only at h ⊢
            rcases hsw1 : skipWs r1 with _ | ⟨c2, r3⟩ <;> rw [hsw1] at h
            · simp at h
            · rw [skipWs_append_cons hsw1]
              dsimp only at h ⊢
              by_cases hc2 : c2 = ':'
              · rw [if_pos hc2] at h ⊢
                rcases hpv : parseVal f (skipWs r3) with _ | ⟨v0, r4⟩ <;> rw [hpv] at h
                · simp at h
                · dsimp only at h
                  rcases hsw3 : skipWs r3 with _ | ⟨d0, r3b⟩
                  · rw [hsw3, parseVal_nil] at hpv; simp at hpv
                  · rw [hsw3] at hpv
                    rcases hsw4 : skipWs r4 with _ | ⟨c3, r6⟩ <;> rw [hsw4] at h
                    · simp at h
                    · have hr4 : r4 ≠ [] := skipWs_ne_nil_of_cons hsw4
                      have hv2 := ihv g2 (d0 :: r3b) v0 r4 tail hfg2 hpv (Or.inl hr4)
                      rw [List.cons_append] at hv2
                      rw [skipWs_append_cons hsw3, hv2]
                      dsimp only at h ⊢
                      rw [skipWs_append_cons hsw4]
                      dsimp only
                      by_cases hc3 : c3 = ','
                      · rw [if_pos hc3] at h ⊢
                        rcases hsw6 : skipWs r6 with _ | ⟨e0, r6b⟩
                        · rw [hsw6, parseMembers_nil] at h; simp at h
                        · rw [hsw6] at h
                          have hres := ihm g2 (e0 :: r6b)
                            (acc ++ [(String.mk keyChars, v0)]) v r tail hfg2 h ht
                          rw [List.cons_append] at hres
                          rw [skipWs_append_cons hsw6]
                          exact hres
                      · rw [if_neg hc3] at h ⊢
                        by_cases hc3b : c3 = '}'
                        · rw [if_pos hc3b] at h ⊢
                          simp only [Option.some.injEq, Prod.mk.injEq] at h ⊢
                          exact ⟨h.1, by rw [← h.2]⟩
                        · rw [if_neg hc3b] at h
                          simp at h
              · rw [if_neg hc2] at h
                simp at h
        · rw [if_neg hquo] at h
          simp at h
    · intro g cs acc v r tail hfg h ht
      obtain ⟨g2, rfl⟩ : ∃ g2, g = g2 + 1 := ⟨g - 1, by omega⟩
      have hfg2 : f ≤ g2 := by omega
      rw [parseItems_succ] at h
      rw [parseItems_succ]
      rcases hpv : parseVal f cs with _ | ⟨v0, r0⟩ <;> rw [hpv] at h
      · simp at h
      · dsimp only at h
        rcases hsw0 : skipWs r0 with _ | ⟨c3, r3⟩ <;> rw [hsw0] at h
        · simp at h
        · have hr0 : r0 ≠ [] := skipWs_ne_nil_of_cons hsw0
          have hv2 := ihv g2 cs v0 r0 tail hfg2 hpv (Or.inl hr0)
          rw [hv2]
          dsimp only at h ⊢
          rw [skipWs_append_cons hsw0]
          dsimp only
          by_cases hc3 : c3 = ','
          · rw [if_pos hc3] at h ⊢
            rcases hsw3 : skipWs r3 with _ | ⟨e0, r3b⟩
            · rw [hsw3, parseItems_nil] at h; simp at h
            · rw [hsw3] at h
              have hres := ihi g2 (e0 :: r3b) (acc ++ [v0]) v r tail hfg2 h ht
              rw [List.cons_append] at hres
              rw [skipWs_append_cons hsw3]
              exact hres
          · rw [if_neg hc3] at h ⊢
            by_cases hc3b : c3 = ']'
            · rw [if_pos hc3b] at h ⊢
              simp only [Option.some.injEq, Prod.mk.injEq] at h ⊢
              exact ⟨h.1, by rw [← h.2]⟩
            · rw [if_neg hc3b] at h
              simp at h

theorem parseItems_arr :
    ∀ (f : Nat) (cs : List Char) (acc : List Json) (v : Json) (r : List Char),
      parseItems f cs acc = some (v, r) → ∃ xs, v = Json.arr xs := by
  intro f
  induction f with
  | zero => intro cs acc v r h; simp [parseItems] at h
  | succ f ih =>
    intro cs acc v r h
    rw [parseItems_succ] at h
    split at h
    · simp at h
    · split at h
      · simp at h
      · split at h
        · exact ih _ _ _ _ h
        · split at h
          · simp only [Option.some.injEq, Prod.mk.injEq] at h
            exact ⟨_, h.1.symm⟩
          · simp at h

theorem parseVal_obj_head :
    ∀ {f : Nat} {cs : List Char} {kvs : List (String × Json)} {r : List Char},
      parseVal f cs = some (Json.obj kvs, r) → ∃ rest, cs = '{' :: rest := by
  intro f cs kvs r h
  cases f with
  | zero => simp [parseVal] at h
  | succ f =>
    match cs with
    | [] => rw [parseVal_nil] at h; simp at h
    | c :: rest =>
      refine ⟨rest, ?_⟩
      by_cases hbrace : c = '{'
      · rw [hbrace]
      · exfalso
        rw [parseVal_succ_cons, if_neg hbrace] at h
        by_cases hbrk : c = '['
        · rw [if_pos hbrk] at h
          split at h
          · simp at h
          · split at h
            · simp at h
            · obtain ⟨xs, hxs⟩ := parseItems_arr _ _ _ _ _ h
              simp at hxs
        · rw [if_neg hbrk] at h
          by_cases hquo : c = '"'
          · rw [if_pos hquo] at h
            split at h <;> simp at h
          · rw [if_neg hquo] at h
            by_cases htl : c = 't'
            · rw [if_pos htl] at h
              split at h <;> simp at h
            · rw [if_neg htl] at h
              by_cases hfl : c = 'f'
              · rw [if_pos hfl] at h
                split at h <;> simp at h
              · rw [if_neg hfl] at h
                by_cases hnl : c = 'n'
                · rw [if_pos hnl] at h
                  split at h <;> simp at h
                · rw [if_neg hnl] at h
                  by_cases hmin : c = '-'
                  · rw [if_pos hmin] at h
                    split at h <;> simp at h
                  · rw [if_neg hmin] at h
                    by_cases hdig : c.isDigit = true
                    · rw [if_pos hdig] at h
                      split at h <;> simp at h
                    · rw [if_neg hdig] at h
                      simp at h

theorem braceScanAux_append_no_brace :
    ∀ {F : Nat} {pre cs : List Char}, (∀ c ∈ pre, c ≠ '{') →
      braceScanAux F (pre ++ cs) = braceScanAux F cs := by
  intro F pre
  induction pre with
  | nil => intro cs _; rfl
  | cons a t ih =>
    intro cs h
    rw [List.cons_append]
    show (if a = '{' then
        match parseVal F (a :: (t ++ cs)) with
        | some (v, _) => some v
        | none => braceScanAux F (t ++ cs)
      else braceScanAux F (t ++ cs)) = braceScanAux F cs
    rw [if_neg (h a (List.mem_cons_self _ _))]
    exact ih (fun c hc => h c (List.mem_cons_of_mem _ hc))

theorem braceScanAux_hit {F : Nat} {rest : List Char} {v : Json} {r : List Char}
    (h : parseVal F ('{' :: rest) = some (v, r)) :
    braceScanAux F ('{' :: rest) = some v := by
  show (if '{' = '{' then
      match parseVal F ('{' :: rest) with
      | some (v, _) => some v
      | none => braceScanAux F rest
    else braceScanAux F rest) = some v
  rw [if_pos rfl, h]

theorem numTailSafe_of_ws_head {w : Char} {rest : List Char}
    (hw : isPyWs w = true) : numTailSafe (w :: rest) := by
  simp only [isPyWs, Bool.or_eq_true, decide_eq_true_eq] at hw
  constructor
  · rcases hw with ((((h | h) | h) | h) | h) | h <;> subst h <;>
      simp +decide [List.takeWhile_cons]
  · rcases hw with ((((h | h) | h) | h) | h) | h <;> subst h <;>
      simp +decide [numStop]

theorem dropTrail_append_last {l : List Char} {d : Char} (hd : isPyWs d = false) :
    dropTrail (l ++ [d]) = l ++ [d] := by
  induction l with
  | nil => simp [dropTrail, hd]
  | cons c t ih =>
    rw [List.cons_append]
    rcases htd : t ++ [d] with _ | ⟨e, t2⟩
    · exact absurd htd (by simp)
    · rw [htd] at ih
      have hdt : dropTrail (c :: e :: t2) = (match dropTrail (e :: t2) with
          | [] => if isPyWs c = true then [] else [c]
          | r => c :: r) := rfl
      rw [hdt, ih]

theorem dropTrail_decomp :
    ∀ l : List Char, ∃ ws, l = dropTrail l ++ ws ∧ ∀ c ∈ ws, isPyWs c = true := by
  intro l
  induction l with
  | nil => exact ⟨[], rfl, by simp⟩
  | cons c t ih =>
    obtain ⟨ws, hws, hall⟩ := ih
    cases h : dropTrail t with
    | nil =>
      have htws : t = ws := by rw [hws, h]; rfl
      by_cases hc : isPyWs c = true
      · have hdt : dropTrail (c :: t) = [] := by simp [dropTrail, h, hc]
        refine ⟨c :: t, ?_, ?_⟩
        · rw [hdt]; rfl
        · intro x hx
          rcases List.mem_cons.mp hx with h1 | h1
          · subst h1; exact hc
          · exact hall x (htws ▸ h1)
      · simp only [Bool.not_eq_true] at hc
        have hdt : dropTrail (c :: t) = [c] := by simp [dropTrail, h, hc]
        refine ⟨ws, ?_, hall⟩
        rw [hdt, htws]
        rfl
    | cons d t2 =>
      have hdt : dropTrail (c :: t) = c :: d :: t2 := by simp [dropTrail, h]
      refine ⟨ws, ?_, hall⟩
      rw [hdt]
      have htws : t = (d :: t2) ++ ws := by rw [hws, h]
      rw [List.cons_append, ← htws]

theorem dropTrail_length_le : ∀ l : List Char, (dropTrail l).length ≤ l.length := by
  intro l
  induction l with
  | nil => simp [dropTrail]
  | cons c t ih =>
    cases h : dropTrail t with
    | nil =>
      by_cases hc : isPyWs c = true <;> simp [dropTrail, h, hc]
    | cons d t2 =>
      rw [h] at ih
      simp only [dropTrail, h, List.length_cons]
      simpa using ih

theorem dropWhile_length_le {p : Char → Bool} :
    ∀ l : List Char, (l.dropWhile p).length ≤ l.length := by
  intro l
  induction l with
  | nil => simp
  | cons c t ih =>
    rw [List.dropWhile_cons]
    by_cases hc : p c = true
    · rw [hc, if_pos rfl]
      exact Nat.le_succ_of_le ih
    · simp only [Bool.not_eq_true] at hc
      rw [hc]
      simp

theorem pyStripL_length_le (cs : List Char) : (pyStripL cs).length ≤ cs.length :=
  le_trans (dropTrail_length_le _) (dropWhile_length_le cs)

theorem pyStripL_head_not_ws :
    ∀ {cs : List Char} {c : Char} {t : List Char},
      pyStripL cs = c :: t → isPyWs c = false := by
  intro cs c t h
  unfold pyStripL at h
  rcases ha : cs.dropWhile isPyWs with _ | ⟨a, r⟩ <;> rw [ha] at h
  · simp [dropTrail] at h
  · have ha2 : isPyWs a = false := dropWhile_head_false ha
    rcases dropTrail_cons_shape a r with h0 | ⟨t2, ht2⟩
    · rw [h0] at h; simp at h
    · rw [ht2] at h
      injection h with h1 _
      rw [← h1]
      exact ha2

theorem isFenceStart_cons_ne {c : Char} (hc : c ≠ bqChar) (t : List Char) :
    isFenceStart (c :: t) = false := by
  match t with
  | [] => rfl
  | [b] => rfl
  | b :: c2 :: t3 => simp [isFenceStart, hc]

theorem parseVal_bq (f : Nat) (rest : List Char) : parseVal f (bqChar :: rest) = none := by
  cases f with
  | zero => rfl
  | succ f =>
    rw [parseVal_succ_cons]
    simp +decide [bqChar]

theorem dropJsonCI_head {a : Char} (ha : a.toLower ≠ 'j') (mid : List Char) :
    dropJsonCI (a :: mid) = none := by
  match mid with
  | [] => rfl
  | [x] => rfl
  | [x, y] => rfl
  | x :: y :: z :: w => simp [dropJsonCI, ha]

theorem stripLead_no_match {rest0 : List Char}
    (hjson : (dropJsonCI rest0).bind dropSlashSRun = none)
    (hslash : dropSlashSRun rest0 = none) :
    stripLead (bqChar :: bqChar :: bqChar :: rest0) = bqChar :: bqChar :: bqChar :: rest0 := by
  show (if bqChar = bqChar ∧ bqChar = bqChar ∧ bqChar = bqChar then
      match (dropJsonCI rest0).bind dropSlashSRun with
      | some r => r
      | none =>
        match dropSlashSRun rest0 with
        | some r => r
        | none => bqChar :: bqChar :: bqChar :: rest0
    else bqChar :: bqChar :: bqChar :: rest0) = bqChar :: bqChar :: bqChar :: rest0
  rw [if_pos ⟨rfl, rfl, rfl⟩, hjson, hslash]

theorem stripTrail_of_newline_end (body : List Char) :
    stripTrail (body ++ '\n' :: [bqChar, bqChar, bqChar]) =
      body ++ '\n' :: [bqChar, bqChar, bqChar] := by
  have hrev : (body ++ '\n' :: [bqChar, bqChar, bqChar]).reverse =
      bqChar :: bqChar :: bqChar :: '\n' :: body.reverse := by
    simp
  simp only [stripTrail, hrev]
  rw [if_pos (by simp)]
  rw [List.dropWhile_cons]
  simp +decide

theorem skipWs_pyStripL (cs : List Char) : skipWs (pyStripL cs) = pyStripL cs := by
  rcases h : pyStripL cs with _ | ⟨c0, t1⟩
  · rfl
  · have h0 := pyStripL_head_not_ws h
    have hj : isJsonWs c0 = false := by
      cases hjj : isJsonWs c0
      · rfl
      · exact absurd (pyWs_of_jsonWs hjj) (by simp [h0])
    simp [skipWs, List.dropWhile_cons, hj]

theorem extractJsonCore_fenced
    (tagChars : List Char) (t : String) (kvs : List (String × Json))
    (hload : loadsL (pyStripL t.data) = some (Json.obj kvs))
    (hnob : ∀ c ∈ tagChars, c ≠ '{')
    (hlead : stripLead (bqChar :: bqChar :: bqChar ::
        (tagChars ++ '\n' :: (t.data ++ '\n' :: [bqChar, bqChar, bqChar]))) =
      bqChar :: bqChar :: bqChar ::
        (tagChars ++ '\n' :: (t.data ++ '\n' :: [bqChar, bqChar, bqChar]))) :
    extractJsonCore (bqChar :: bqChar :: bqChar ::
        (tagChars ++ '\n' :: (t.data ++ '\n' :: [bqChar, bqChar, bqChar]))) =
      Except.ok (Json.obj kvs) := by
  set c1 := pyStripL t.data with hc1def
  set F := bqChar :: bqChar :: bqChar ::
    (tagChars ++ '\n' :: (t.data ++ '\n' :: [bqChar, bqChar, bqChar])) with hFdef
  simp only [loadsL] at hload
  rcases hpv : parseVal (c1.length + 1) (skipWs c1) with _ | ⟨v, r⟩ <;> rw [hpv] at hload
  · simp at hload
  · dsimp only at hload
    split at hload
    · next hr =>
      simp only [Option.some.injEq] at hload
      subst hload
      obtain ⟨rest2, hrest2⟩ := parseVal_obj_head hpv
      have hc1skip : skipWs c1 = c1 := skipWs_pyStripL t.data
      have hc1brace : c1 = '{' :: rest2 := by rw [← hc1skip, hrest2]
      rw [hc1skip] at hpv
      rw [hc1brace] at hpv
      obtain ⟨wsPost, hwsPost, hwsPostAll⟩ := dropTrail_decomp (t.data.dropWhile isPyWs)
      have hdp : t.data.dropWhile isPyWs = c1 ++ wsPost := by
        calc t.data.dropWhile isPyWs
            = dropTrail (t.data.dropWhile isPyWs) ++ wsPost := hwsPost
          _ = c1 ++ wsPost := by rw [hc1def]; rfl
      have htdata : t.data = t.data.takeWhile isPyWs ++ (c1 ++ wsPost) := by
        rw [← hdp]
        exact (List.takeWhile_append_dropWhile isPyWs t.data).symm
      have hFsplit : F = (bqChar :: bqChar :: bqChar ::
          (tagChars ++ '\n' :: t.data.takeWhile isPyWs)) ++
          (('{' :: rest2) ++ (wsPost ++ '\n' :: [bqChar, bqChar, bqChar])) := by
        rw [hFdef]
        conv_lhs => rw [htdata, hc1brace]
        simp [List.append_assoc]
      have hFtail2 : F = (bqChar :: bqChar :: bqChar ::
          (tagChars ++ '\n' :: (t.data ++ ['\n', bqChar, bqChar]))) ++ [bqChar] := by
        rw [hFdef]
        simp [List.append_assoc]
      have hbqpy : isPyWs bqChar = false := by decide
      have hstripF : pyStripL F = F := by
        show dropTrail (F.dropWhile isPyWs) = F
        have h1 : F.dropWhile isPyWs = F := by
          rw [hFdef, List.dropWhile_cons]
          simp [hbqpy]
        rw [h1, hFtail2]
        exact dropTrail_append_last hbqpy
      have hfs : isFenceStart F = true := by
        rw [hFdef]
        simp +decide [isFenceStart]
      have htrailF : stripTrail F = F := by
        have hFtail : F = (bqChar :: bqChar :: bqChar :: (tagChars ++ '\n' :: t.data)) ++
            '\n' :: [bqChar, bqChar, bqChar] := by
          rw [hFdef]
          simp [List.append_assoc]
        rw [hFtail]
        exact stripTrail_of_newline_end _
      have hloadF : loadsL F = none := by
        simp only [loadsL]
        have hsk : skipWs F = F := by
          rw [hFdef]
          simp [skipWs, List.dropWhile_cons, (by decide : isJsonWs bqChar = false)]
        rw [hsk, hFdef, parseVal_bq]
      have hpre : ∀ c ∈ bqChar :: bqChar :: bqChar ::
          (tagChars ++ '\n' :: t.data.takeWhile isPyWs), c ≠ '{' := by
        intro c hc
        simp only [List.mem_cons, List.mem_append] at hc
        rcases hc with rfl | rfl | rfl | h | rfl | h
        · decide
        · decide
        · decide
        · exact hnob c h
        · decide
        · have hws := List.mem_takeWhile_imp h
          intro heq
          rw [heq] at hws
          exact absurd hws (by decide)
      have hscan : ∀ G, ('{' :: rest2).length + 1 ≤ G →
          braceScanAux G F = some (Json.obj kvs) := by
        intro G hG
        have htailok : restTailOk r (wsPost ++ '\n' :: [bqChar, bqChar, bqChar]) := by
          rcases r with _ | ⟨rc, rrest⟩
          · right
            cases wsPost with
            | nil => exact numTailSafe_of_ws_head (by decide)
            | cons w ws2 => exact numTailSafe_of_ws_head (hwsPostAll w (List.mem_cons_self _ _))
          · left; simp
        have happ := (parse_append (('{' :: rest2).length + 1)).1 G ('{' :: rest2)
          (Json.obj kvs) r (wsPost ++ '\n' :: [bqChar, bqChar, bqChar]) hG hpv htailok
        rw [List.cons_append] at happ
        rw [hFsplit, braceScanAux_append_no_brace hpre, List.cons_append]
        exact braceScanAux_hit happ
      have hlen : ('{' :: rest2).length + 1 ≤ F.length + 1 := by
        have h1 : c1.length ≤ t.data.length := by
          rw [hc1def]
          exact pyStripL_length_le t.data
        rw [← hc1brace, hFdef]
        simp only [List.length_cons, List.length_append]
        omega
      simp only [extractJsonCore, hstripF, hfs, if_true, hlead, htrailF, hloadF,
        hscan (F.length + 1) hlen]
      rw [if_neg (by rw [hFdef]; simp)]
    · simp at hload

/-- C6: for every text `t` that is (up to surrounding whitespace) the text of
a single JSON object, `_extract_json_payload` applied to `t` wrapped in
three-backquote code fences — bare or with a `json`/`JSON` tag — returns the
same object as applying it to the bare `t`.  The fence-substitution regexes
are inert on such input (their doubled backslashes demand a literal
backslash), but the brace scan recovers exactly the object, so the observable
fence-tolerance contract holds. -/
theorem c6_fence_equivalence :
    ∀ (t : String) (kvs : List (String × Json)) (tag : String),
      tag = "" ∨ tag = "json" ∨ tag = "JSON" →
      loadsL (pyStripL t.data) = some (Json.obj kvs) →
      extract_json_payload ("```" ++ tag ++ "\n" ++ t ++ "\n```") =
          Except.ok (Json.obj kvs) ∧
        extract_json_payload t = Except.ok (Json.obj kvs) := by
  intro t kvs tag htag hload
  have hexists : ∃ rest2, pyStripL t.data = '{' :: rest2 := by
    have hl2 := hload
    simp only [loadsL] at hl2
    rcases hpv : parseVal ((pyStripL t.data).length + 1) (skipWs (pyStripL t.data))
        with _ | ⟨v, r⟩ <;> rw [hpv] at hl2
    · simp at hl2
    · dsimp only at hl2
      split at hl2
      · simp only [Option.some.injEq] at hl2
        subst hl2
        obtain ⟨rest2, hr2⟩ := parseVal_obj_head hpv
        rw [skipWs_pyStripL] at hr2
        exact ⟨rest2, hr2⟩
      · simp at hl2
  obtain ⟨rest2, hbrace⟩ := hexists
  have hne : pyStripL t.data ≠ [] := by rw [hbrace]; simp
  have hfsf : isFenceStart (pyStripL t.data) = false := by
    rw [hbrace]
    exact isFenceStart_cons_ne (by decide) _
  constructor
  · have hdata : ("```" ++ tag ++ "\n" ++ t ++ "\n```").data =
        bqChar :: bqChar :: bqChar ::
          (tag.data ++ '\n' :: (t.data ++ '\n' :: [bqChar, bqChar, bqChar])) := by
      have h3 : ("```" : String).data = [bqChar, bqChar, bqChar] := by decide
      have hnl : ("\n" : String).data = ['\n'] := rfl
      have hS : ("\n```" : String).data = ['\n', bqChar, bqChar, bqChar] := by decide
      rw [string_data_append, string_data_append, string_data_append, string_data_append,
        h3, hnl, hS]
      simp [List.append_assoc]
    show extractJsonCore ("```" ++ tag ++ "\n" ++ t ++ "\n```").data = Except.ok (Json.obj kvs)
    rw [hdata]
    apply extractJsonCore_fenced tag.data t kvs hload
    · intro c hc
      rcases htag with rfl | rfl | rfl
      · simp at hc
      · rw [show ("json" : String).data = ['j', 's', 'o', 'n'] from by decide] at hc
        simp only [List.mem_cons, List.not_mem_nil, or_false] at hc
        rcases hc with rfl | rfl | rfl | rfl <;> decide
      · rw [show ("JSON" : String).data = ['J', 'S', 'O', 'N'] from by decide] at hc
        simp only [List.mem_cons, List.not_mem_nil, or_false] at hc
        rcases hc with rfl | rfl | rfl | rfl <;> decide
    · rcases htag with rfl | rfl | rfl
      · show stripLead (bqChar :: bqChar :: bqChar :: ('\n' ::
            (t.data ++ '\n' :: [bqChar, bqChar, bqChar]))) = _
        apply stripLead_no_match
        · rw [dropJsonCI_head (by decide)]
          rfl
        · simp +decide [dropSlashSRun]
      · rw [show ("json" : String).data = ['j', 's', 'o', 'n'] from by decide]
        show stripLead (bqChar :: bqChar :: bqChar :: ('j' :: 's' :: 'o' :: 'n' :: '\n' ::
            (t.data ++ '\n' :: [bqChar, bqChar, bqChar]))) = _
        apply stripLead_no_match
        · rw [show dropJsonCI ('j' :: 's' :: 'o' :: 'n' :: '\n' ::
              (t.data ++ '\n' :: [bqChar, bqChar, bqChar])) =
              some ('\n' :: (t.data ++ '\n' :: [bqChar, bqChar, bqChar])) from by
            simp +decide [dropJsonCI]]
          simp +decide [dropSlashSRun]
        · simp +decide [dropSlashSRun]
      · rw [show ("JSON" : String).data = ['J', 'S', 'O', 'N'] from by decide]
        show stripLead (bqChar :: bqChar :: bqChar :: ('J' :: 'S' :: 'O' :: 'N' :: '\n' ::
            (t.data ++ '\n' :: [bqChar, bqChar, bqChar]))) = _
        apply stripLead_no_match
        · rw [show dropJsonCI ('J' :: 'S' :: 'O' :: 'N' :: '\n' ::
              (t.data ++ '\n' :: [bqChar, bqChar, bqChar])) =
              some ('\n' :: (t.data ++ '\n' :: [bqChar, bqChar, bqChar])) from by
            simp +decide [dropJsonCI]]
          simp +decide [dropSlashSRun]
        · simp +decide [dropSlashSRun]
  · show extractJsonCore t.data = Except.ok (Json.obj kvs)
    simp only [extractJsonCore, if_neg hne, hfsf, Bool.false_eq_true, if_false, hload]

theorem c6_fence_equivalence_witness :
    loadsL (pyStripL ("\x7b\x7d" : String).data) = some (Json.obj []) ∧
      (extract_json_payload ("```" ++ "json" ++ "\n" ++ "\x7b\x7d" ++ "\n```") =
          Except.ok (Json.obj []) ∧
        extract_json_payload "\x7b\x7d" = Except.ok (Json.obj [])) :=
  ⟨rfl, c6_fence_equivalence "\x7b\x7d" [] "json" (Or.inr (Or.inl rfl)) rfl⟩
